import Mathlib

/-!
# Verification of the streamline target-selection engine

Shallow embedding of `src/analyzer/backend/radare2.rs` (struct
`Radare2AnalyzerBackend` and its pipeline) together with
`src/analyzer/backend.rs` (struct `TargetFunction`).

Modelling conventions:

* Rust `u64` values (addresses, sizes, cyclomatic complexity, counts) are
  modelled as `Nat`.  The quantities involved (vector lengths, complexity
  indices bounded by `floor (ln (2^64)) + length`) cannot overflow `u64`
  in any run that fits in memory, so no wrap-around modelling is needed.
* Rust `f64` values are modelled by `F64 := Option ℚ`: `some q` is the
  finite real value `q`, `none` is the quiet NaN that `0.0 / 0.0`
  produces.  Every NaN this program ever creates comes from the division
  in `calculate_memory_operation_count` applied to an empty operation
  list, i.e. `0.0 / 0.0`, which on the mainstream targets (x86-64 SSE2,
  and after sign-preserving additions) is a single negative quiet NaN bit
  pattern; `f64::total_cmp` places it below every real number and equal
  to itself, which is what `totalCmp` below does with `none`.
  Rounding of `f64` arithmetic is abstracted to exact rational
  arithmetic, matching the specification's reading of the scores as real
  numbers.
* `HashMap<u64, Function>` is modelled as an association list
  `List (Nat × Function)` in first-insertion order with pairwise
  distinct keys (`HashMap` semantics).  The single place where the
  unspecified `HashMap` iteration order is observable is
  `group_functions` (`for function in self.functions.values()`), which
  is therefore parametrised by the sequence `order` in which the values
  are visited; theorems quantify over all permutations of the stored
  values.
* `BTreeMap<u64, ComplexityGroup>` is modelled as an association list
  kept sorted by key in strictly ascending order (its iteration order).
* The r2pipe interaction of `set_functions` (commands `aaa`, `aflj`,
  `s`, `afxj`, `aOj`) is modelled by the parsed feed it yields: a list
  of `FeedEntry` values, one per `aflj` record, in feed order.  The
  error paths (`Err` on command or parse failure) abort the whole run
  producing no store at all, so the model covers every run in which
  ingestion succeeds.
-/

namespace Streamline

/-- Model of the `f64` values this program manipulates: `some q` is the
finite real `q`, `none` is the (unique) NaN produced by `0.0 / 0.0`. -/
abbrev F64 := Option ℚ

/-- `f64` addition: NaN propagates through `+`. -/
def fadd : F64 → F64 → F64
  | some a, some b => some (a + b)
  | _, _ => none

/-- Model of the Rust comparison `x > 0.0`.  A NaN compares `false`. -/
def fGt0 : F64 → Bool
  | none => false
  | some q => decide (0 < q)

/-- Comparison of two rationals as an `Ordering`. -/
def qCmp (a b : ℚ) : Ordering :=
  if a < b then .lt else if a = b then .eq else .gt

/-- Model of `f64::total_cmp` on the values this program produces: all
NaNs are the single negative quiet NaN from `0.0 / 0.0`, which
`total_cmp` places strictly below every real number and equal to any
other such NaN. -/
def totalCmp : F64 → F64 → Ordering
  | none, none => .eq
  | none, some _ => .lt
  | some _, none => .gt
  | some a, some b => qCmp a b

/-- One record of the JSON array returned by radare2's `aflj`
(struct `JSONFunctionData` in the source). -/
structure JSONFunctionData where
  /-- function name -/
  name : String
  /-- function offset -/
  offset : Nat
  /-- function size in byte -/
  size : Nat
  /-- cyclomatic complexity -/
  cc : Nat
deriving DecidableEq, Repr

/-- One record of the JSON array returned by radare2's `afxj`
(struct `JSONFunctionReference` in the source). -/
structure JSONFunctionReference where
  /-- type of reference -/
  type : String
  /-- reference to address (field `to` in the source; `to` is a reserved
  token in Lean) -/
  toAddr : Nat
deriving DecidableEq, Repr

/-- One record of the JSON array returned by radare2's `aOj`
(struct `JSONOperation` in the source). -/
structure JSONOperation where
  /-- operation address -/
  addr : Nat
  /-- operation type -/
  type : String
deriving DecidableEq, Repr

/-- Everything `set_functions` obtains from radare2 about one function
listed by `aflj`: its `JSONFunctionData` record, its `afxj` reference
list, and its `aOj` operation list. -/
structure FeedEntry where
  data : JSONFunctionData
  refs : List JSONFunctionReference
  ops : List JSONOperation
deriving DecidableEq, Repr

/-- Struct `Function` of the source, one per analyzed address. -/
structure Function where
  /-- function address -/
  offset : Nat
  /-- function name -/
  name : String
  /-- function size in byte -/
  size : Nat
  /-- cyclomatic complexity -/
  cc : Nat
  /-- list of addresses this function calls -/
  calls : List Nat
  /-- list of addresses that call this function -/
  callers : List Nat
  /-- number of times called -/
  x_f : Nat
  /-- function complexity index -/
  complex_f : Nat
  /-- sensitivity function call index -/
  s_f : F64
  /-- list of operations -/
  operation_list : List JSONOperation
  /-- number of memory operations -/
  p_f : F64
  /-- vulnerability feature index -/
  vulnerability_f : F64
deriving DecidableEq, Repr

/-- `Function::new` of the source. -/
def Function.new (offset : Nat) : Function where
  offset := offset
  name := ""
  size := 0
  cc := 0
  calls := []
  callers := []
  x_f := 0
  complex_f := 0
  s_f := some 0
  operation_list := []
  p_f := some 0
  vulnerability_f := some 0

/-- Struct `ComplexityGroup` of the source. -/
structure ComplexityGroup where
  /-- complexity index -/
  complex_f : Nat
  /-- list of function addresses that have the same function complexity index -/
  functions : List Nat
deriving DecidableEq, Repr

/-- `ComplexityGroup::new` of the source. -/
def ComplexityGroup.new (complex_f : Nat) : ComplexityGroup where
  complex_f := complex_f
  functions := []

/-- Struct `TargetFunction` of `src/analyzer/backend.rs`. -/
structure TargetFunction where
  /-- function address -/
  address : Nat
  /-- function name -/
  name : String
  /-- function complexity index -/
  complexity : Nat
  /-- function vulnerability feature index -/
  vulnerability : F64
deriving DecidableEq, Repr

/-- `TargetFunction::new` of the source. -/
def TargetFunction.new (address : Nat) (name : String) (complexity : Nat)
    (vulnerability : F64) : TargetFunction :=
  ⟨address, name, complexity, vulnerability⟩

/-- The `HashMap<u64, Function>` field `functions`, as an association
list in first-insertion order.  Keys are pairwise distinct. -/
abbrev Store := List (Nat × Function)

/-- `HashMap::contains_key`. -/
def storeContains (k : Nat) (st : Store) : Bool :=
  (List.lookup k st).isSome

/-- `HashMap::get_mut` followed by a field update of the entry at key
`k` (all other entries untouched). -/
def storeAdjust (k : Nat) (g : Function → Function) (st : Store) : Store :=
  st.map fun p => if p.1 = k then (p.1, g p.2) else p

/-- `HashMap::insert` of a fresh record, used by `set_functions` only
when `contains_key` is false; a new key is appended in insertion
order. -/
def storeInsertNew (k : Nat) (f : Function) (st : Store) : Store :=
  st ++ [(k, f)]

/-- The body of the `for reference in json_function_references` loop of
`set_functions`: a `"CALL"` reference pushes the target onto `calls`,
creates the callee's bare record if it does not exist yet, and appends
the caller's offset to the callee's `callers`.  Other reference kinds
are ignored. -/
def ingestRef (caller : Nat) (acc : Store × List Nat)
    (r : JSONFunctionReference) : Store × List Nat :=
  if r.type = "CALL" then
    let st1 := if storeContains r.toAddr acc.1 then acc.1
               else storeInsertNew r.toAddr (Function.new r.toAddr) acc.1
    let st2 := storeAdjust r.toAddr
        (fun f => { f with callers := f.callers ++ [caller] }) st1
    (st2, acc.2 ++ [r.toAddr])
  else acc

/-- The body of the `for data in json_function_data` loop of
`set_functions`: ensure a record for the defined function exists,
process its reference list, then fill the record with name, size,
cyclomatic complexity, calls and operations. -/
def ingestEntry (st : Store) (e : FeedEntry) : Store :=
  let st1 := if storeContains e.data.offset st then st
             else storeInsertNew e.data.offset (Function.new e.data.offset) st
  let sc := e.refs.foldl (ingestRef e.data.offset) (st1, [])
  storeAdjust e.data.offset
    (fun f =>
      { f with
        name := e.data.name
        size := e.data.size
        cc := e.data.cc
        calls := f.calls ++ sc.2
        operation_list := f.operation_list ++ e.ops }) sc.1

/-- `Radare2AnalyzerBackend::set_functions`, applied to the parsed feed
radare2 returned (a run on which any r2pipe command or JSON parse fails
returns `Err` before producing a store and is outside this model). -/
def set_functions (feed : List FeedEntry) : Store :=
  feed.foldl ingestEntry []

/-- The loop body of `calculate_reference_relationship`:
`x_f = callers.len()`. -/
def crrUpd (f : Function) : Function :=
  { f with x_f := f.callers.length }

/-- `Radare2AnalyzerBackend::calculate_reference_relationship`. -/
def calculate_reference_relationship (st : Store) : Store :=
  st.map fun p => (p.1, crrUpd p.2)

/-- The integer thresholds `⌈e^k⌉` for `k = 1, …, 44`; `e^44` is the
last power of `e` below `2^64`. -/
def lnThresholds : List Nat :=
  [3, 8, 21, 55, 149, 404, 1097, 2981, 8104, 22027, 59875, 162755,
   442414, 1202605, 3269018, 8886111, 24154953, 65659970, 178482301,
   485165196, 1318815735, 3584912847, 9744803447, 26489122130,
   72004899338, 195729609429, 532048240602, 1446257064292,
   3931334297145, 10686474581525, 29048849665248, 78962960182681,
   214643579785917, 583461742527455, 1586013452313431,
   4311231547115196, 11719142372802612, 31855931757113757,
   86593400423993747, 235385266837019986, 639843493530054950,
   1739274941520501048, 4727839468229346562, 12851600114359308276]

/-- Number of leading elements of a (sorted) list that are `≤ c`. -/
def countLE (c : Nat) : List Nat → Nat
  | [] => 0
  | t :: ts => if t ≤ c then countLE c ts + 1 else 0

/-- Model of the Rust expression `(cc as f64).ln().floor() as u64` under
exact real semantics for `ln`: for `c ≥ 1` this is `⌊ln c⌋` (proved
against `Real.log` below), and for `c = 0` the logarithm is `-∞`, which
the saturating float-to-int cast `as u64` sends to `0`. -/
def floorLn (c : Nat) : Nat :=
  countLE c lnThresholds

/-- The loop body of `calculate_complexity_index`:
`complex_f = (cc as f64).ln().floor() as u64 + x_f`. -/
def cciUpd (f : Function) : Function :=
  { f with complex_f := floorLn f.cc + f.x_f }

/-- `Radare2AnalyzerBackend::calculate_complexity_index`. -/
def calculate_complexity_index (st : Store) : Store :=
  st.map fun p => (p.1, cciUpd p.2)

/-- The `BTreeMap<u64, ComplexityGroup>` field `complexity_groups`, as
an association list sorted by key in strictly ascending order (the
iteration order of a `BTreeMap`). -/
abbrev Groups := List (Nat × ComplexityGroup)

/-- `BTreeMap::contains_key`. -/
def bmContains (k : Nat) (gs : Groups) : Bool :=
  (List.lookup k gs).isSome

/-- `BTreeMap::insert` of a fresh group: sorted insertion by key. -/
def bmInsertNew (k : Nat) (g : ComplexityGroup) : Groups → Groups
  | [] => [(k, g)]
  | (k', g') :: rest =>
      if k ≤ k' then (k, g) :: (k', g') :: rest
      else (k', g') :: bmInsertNew k g rest

/-- `BTreeMap::get_mut` followed by a field update of the group at key
`k`. -/
def bmAdjust (k : Nat) (h : ComplexityGroup → ComplexityGroup)
    (gs : Groups) : Groups :=
  gs.map fun p => if p.1 = k then (p.1, h p.2) else p

/-- `Radare2AnalyzerBackend::group_functions`.  The source iterates
`self.functions.values()`, whose order a `HashMap` does not specify;
the sequence of visited values is therefore the parameter `order`, and
the theorems below quantify over all permutations of the stored
values.  `groupStep` is the loop body: a function with `complex_f > 0`
is appended to its complexity group's member list, creating the group
first when absent; a function with `complex_f == 0` is skipped. -/
def groupStep (gs : Groups) (f : Function) : Groups :=
  if f.complex_f > 0 then
    let gs1 := if bmContains f.complex_f gs then gs
               else bmInsertNew f.complex_f (ComplexityGroup.new f.complex_f) gs
    bmAdjust f.complex_f
      (fun g => { g with functions := g.functions ++ [f.offset] }) gs1
  else gs

/-- `Radare2AnalyzerBackend::group_functions` as the fold of
`groupStep` over the visited values. -/
def group_functions (order : List Function) : Groups :=
  order.foldl groupStep []

/-- The bare name fragment used by
`calculate_sensitivity_function_call_index`: the Rust expression
`called_function.name.split(".").last()` with its (dead, since `split`
always yields at least one piece) `None => &function.name` fallback. -/
def nameFragment (calledName fallback : String) : String :=
  match (calledName.splitOn ".").getLast? with
  | some s => s
  | none => fallback

/-- The two nested inner loops of
`calculate_sensitivity_function_call_index` computing one function's
`s_f`: for every call edge (with multiplicity), if the callee exists in
the store, every weight-table entry whose key equals the callee's bare
name fragment adds its weight. -/
def sensScore (sens : List (String × ℚ)) (st : Store) (f : Function) : ℚ :=
  f.calls.foldl
    (fun acc c =>
      match List.lookup c st with
      | none => acc
      | some called =>
          let function_name := nameFragment called.name f.name
          sens.foldl
            (fun a p => if function_name = p.1 then a + p.2 else a) acc)
    0

/-- `Radare2AnalyzerBackend::calculate_sensitivity_function_call_index`.
The source first collects every function's score into a temporary
`HashMap` (reading only `calls` and `name` from the unmodified store)
and then writes each score back to its function; the net effect is the
per-entry update `sensUpd`. -/
def sensUpd (sens : List (String × ℚ)) (base : Store) (f : Function) : Function :=
  { f with s_f := some (sensScore sens base f) }

/-- `Radare2AnalyzerBackend::calculate_sensitivity_function_call_index`
(see the comment on `sensUpd`). -/
def calculate_sensitivity_function_call_index
    (sens : List (String × ℚ)) (st : Store) : Store :=
  st.map fun p => (p.1, sensUpd sens st p.2)

/-- The `memory_operation_types` vector of the source. -/
def memory_operation_types : List String := ["load", "store"]

/-- The counting loop of `calculate_memory_operation_count`. -/
def memOpCount (ops : List JSONOperation) : Nat :=
  (ops.filter fun op => memory_operation_types.any fun t => op.type = t).length

/-- The per-function division of `calculate_memory_operation_count`:
`memory_operation_count as f64 / operation_list.len() as f64`.  For an
empty operation list this is `0.0 / 0.0 = NaN`, i.e. `none`. -/
def densityOf (ops : List JSONOperation) : F64 :=
  if ops.length = 0 then none
  else some ((memOpCount ops : ℚ) / (ops.length : ℚ))

/-- The loop body of `calculate_memory_operation_count`. -/
def memUpd (f : Function) : Function :=
  { f with p_f := densityOf f.operation_list }

/-- `Radare2AnalyzerBackend::calculate_memory_operation_count`:
`p_f = memory_operation_count as f64 / operation_list.len() as f64`. -/
def calculate_memory_operation_count (st : Store) : Store :=
  st.map fun p => (p.1, memUpd p.2)

/-- The loop body of `calculate_vulnerability_feature_index`:
`vulnerability_f = s_f + p_f` (NaN propagates). -/
def vulnUpd (f : Function) : Function :=
  { f with vulnerability_f := fadd f.s_f f.p_f }

/-- `Radare2AnalyzerBackend::calculate_vulnerability_feature_index`. -/
def calculate_vulnerability_feature_index (st : Store) : Store :=
  st.map fun p => (p.1, vulnUpd p.2)

/-- The score the ranking comparator reads for an address: the stored
function's `vulnerability_f`, or `0.0` when the address is absent
(`None => 0.0 as f64` in the source). -/
def scoreAt (st : Store) (a : Nat) : F64 :=
  match List.lookup a st with
  | some f => f.vulnerability_f
  | none => some 0

/-- The comparator closure of `rank_functions` as a sort precondition:
Rust's stable `sort_by` with comparator
`|a, b| vulnerability_f_b.total_cmp(&vulnerability_f_a)` produces a
sequence whose consecutive elements satisfy `cmp a b ≠ Greater`,
i.e. descending `vulnerability_f` under `total_cmp`. -/
def rankLe (st : Store) (a b : Nat) : Prop :=
  totalCmp (scoreAt st b) (scoreAt st a) ≠ Ordering.gt

instance (st : Store) : DecidableRel (rankLe st) := fun _ _ =>
  instDecidableNot

/-- `Radare2AnalyzerBackend::rank_functions`: every group's member list
is stably sorted by descending `vulnerability_f` under `total_cmp`.
Rust's `slice::sort_by` is a stable sort, and for a comparator that is
a total preorder (which `rankLe` is, see `rankLe_total` and
`rankLe_trans` below) the output of a stable sort is uniquely
determined by the comparator and the input order; the model therefore
uses the stable `List.insertionSort`, which produces that same unique
output. -/
def rankUpd (st : Store) (g : ComplexityGroup) : ComplexityGroup :=
  { g with functions := List.insertionSort (rankLe st) g.functions }

/-- `Radare2AnalyzerBackend::rank_functions` (see `rankUpd`). -/
def rank_functions (st : Store) (gs : Groups) : Groups :=
  gs.map fun p => (p.1, rankUpd st p.2)

/-- The inner loop of `export` over one group's (ranked) member list:
skip addresses missing from the store (`None => continue`), emit the
first member whose `vulnerability_f > 0.0` and `break`. -/
def exportGroup (st : Store) : List Nat → Option TargetFunction
  | [] => none
  | a :: rest =>
      match List.lookup a st with
      | none => exportGroup st rest
      | some f =>
          if fGt0 f.vulnerability_f then
            some (TargetFunction.new f.offset f.name f.complex_f
              f.vulnerability_f)
          else exportGroup st rest

/-- `Radare2AnalyzerBackend::export` (named `exportTargets` because
`export` is a Lean keyword): walk the complexity groups in ascending
key order and collect at most one target per group. -/
def exportTargets (st : Store) (gs : Groups) : List TargetFunction :=
  gs.foldl
    (fun acc p =>
      match exportGroup st p.2.functions with
      | some t => acc ++ [t]
      | none => acc)
    []

/-- The fields of `Radare2AnalyzerBackend` that the analysis reads and
writes (the r2pipe handle only matters during ingestion, which is
modelled by the feed). -/
structure Backend where
  /-- map of addresses of analyzed functions (key) with their data (value) -/
  functions : Store
  /-- map of complexity indexes (key) with their complexity groups (value) -/
  complexity_groups : Groups
  /-- map of names of sensitive functions (key) with their weights (value) -/
  sensitive_functions : List (String × ℚ)
deriving DecidableEq, Repr

/-- The store as it stands when `group_functions` runs: after
`set_functions`, `calculate_reference_relationship` and
`calculate_complexity_index`. -/
def storeAtGrouping (feed : List FeedEntry) : Store :=
  calculate_complexity_index (calculate_reference_relationship (set_functions feed))

/-- `Radare2AnalyzerBackend::analyze` for a run whose ingestion
succeeded with the given feed: `set_functions`, then
`complexity_grouping` (reference relationship, complexity index,
grouping), then `vulnerability_feature_ranking` (sensitivity, memory
density, vulnerability index, ranking).  `order` is the unspecified
`HashMap` iteration order used by `group_functions`.  `scoredStore` is
the function store at the end of `analyze`: none of the three scoring
stages depends on an iteration order (each is a per-entry update), so
the final store is independent of `order`. -/
def scoredStore (sens : List (String × ℚ)) (feed : List FeedEntry) : Store :=
  calculate_vulnerability_feature_index
    (calculate_memory_operation_count
      (calculate_sensitivity_function_call_index sens (storeAtGrouping feed)))

/-- `Radare2AnalyzerBackend::analyze` assembled from its stages (see
the comment on `scoredStore`). -/
def analyze (sens : List (String × ℚ)) (feed : List FeedEntry)
    (order : List Function) : Backend :=
  ⟨scoredStore sens feed, rank_functions (scoredStore sens feed) (group_functions order),
   sens⟩

/-- `Analyzer::export` / `Radare2AnalyzerBackend::export` on the
analyzed backend. -/
def Backend.exportTargets (b : Backend) : List TargetFunction :=
  Streamline.exportTargets b.functions b.complexity_groups


/-- The list starting at index `k` consists of the values `⌈e ^ i⌉` for
`i = k + 1, k + 2, …`: each entry `t` satisfies `t - 1 < e ^ i < t`. -/
def ThreshOK : ℕ → List ℕ → Prop
  | _, [] => True
  | k, t :: ts =>
      (((t : ℝ) - 1 < Real.exp (k + 1 : ℕ)) ∧ Real.exp (k + 1 : ℕ) < t) ∧
        ThreshOK (k + 1) ts

/-- Well-formedness of the function store: pairwise-distinct keys (a
`HashMap` invariant) and every record filed under its own offset. -/
def StoreWF (st : Store) : Prop :=
  (st.map Prod.fst).Nodup ∧ ∀ p ∈ st, p.2.offset = p.1

/-- Every address in any record's `calls` list has a record. -/
def CallsClosed (st : Store) : Prop :=
  ∀ p ∈ st, ∀ c ∈ p.2.calls, c ∈ st.map Prod.fst

/-- Total number of caller entries across the store. -/
def callersSum (st : Store) : Nat :=
  (st.map fun p => p.2.callers.length).sum

/-- Number of `"CALL"` references in one feed entry. -/
def callCount (e : FeedEntry) : Nat :=
  (e.refs.filter fun r => r.type = "CALL").length

/-- Net per-record effect of `calculate_reference_relationship`
followed by `calculate_complexity_index`. -/
def preGroupUpd (f : Function) : Function :=
  { f with
    x_f := f.callers.length
    complex_f := floorLn f.cc + f.callers.length }

/-- Net per-record effect of the three scoring stages
(`calculate_sensitivity_function_call_index`,
`calculate_memory_operation_count`,
`calculate_vulnerability_feature_index`) over the base store `base`. -/
def scoreUpd (sens : List (String × ℚ)) (base : Store) (f : Function) : Function :=
  { f with
    s_f := some (sensScore sens base f)
    p_f := densityOf f.operation_list
    vulnerability_f := fadd (some (sensScore sens base f))
      (densityOf f.operation_list) }

/-- Member list of the complexity group keyed `k` (empty when no such
group exists). -/
def gMembers (gs : Groups) (k : Nat) : List Nat :=
  match List.lookup k gs with
  | some g => g.functions
  | none => []

/-- The inner-loop test of `export` on one address: the emitted target
when the address resolves and its score is strictly positive. -/
def qualTarget (st : Store) (a : Nat) : Option TargetFunction :=
  match List.lookup a st with
  | none => none
  | some f =>
      if fGt0 f.vulnerability_f then
        some (TargetFunction.new f.offset f.name f.complex_f f.vulnerability_f)
      else none

/-- Sum of the derived `x_f` fields across the store. -/
def xfSum (st : Store) : Nat :=
  (st.map fun p => p.2.x_f).sum

/-- Concrete one-function feed (operations `[load, add]`) used by the
C4 witness. -/
def feedC4 : List FeedEntry := [⟨⟨"f", 1, 0, 1⟩, [], [⟨0, "load"⟩, ⟨1, "add"⟩]⟩]

/-- The record the pipeline derives for `feedC4`'s function. -/
def fnC4 : Function :=
  { Function.new 1 with
    name := "f"
    cc := 1
    operation_list := [⟨0, "load"⟩, ⟨1, "add"⟩]
    s_f := some 0
    p_f := some (1 / 2)
    vulnerability_f := some (1 / 2) }

/-- Concrete one-function feed whose function gets complexity index `0`
(`cc = 1`, no callers), used by the C7 witness. -/
def feedC7 : List FeedEntry := [⟨⟨"g", 3, 0, 1⟩, [], [⟨0, "load"⟩]⟩]

/-- The record `storeAtGrouping feedC7` holds at address `3`. -/
def fnC7 : Function :=
  { Function.new 3 with
    name := "g"
    cc := 1
    operation_list := [⟨0, "load"⟩] }

/-- Two-function feed giving two distinct complexity classes, used by
the C1 witness. -/
def feedC1 : List FeedEntry :=
  [⟨⟨"a", 1, 0, 3⟩, [], [⟨0, "load"⟩]⟩,
   ⟨⟨"b", 2, 0, 8⟩, [], [⟨0, "store"⟩]⟩]

/-- `export` with its `&self` receiver threaded explicitly through the
loop, statement by statement: the method only ever reads the backend
(it takes `&self` and the body contains no assignment to any field), so
the state component is returned untouched. -/
def exportLoop (b : Backend) : Groups → List TargetFunction →
    Backend × List TargetFunction
  | [], acc => (b, acc)
  | p :: gs, acc =>
      match exportGroup b.functions p.2.functions with
      | some t => exportLoop b gs (acc ++ [t])
      | none => exportLoop b gs acc

/-- One call of `export` on the backend, with the receiver state
returned alongside the output. -/
def exportS (b : Backend) : Backend × List TargetFunction :=
  exportLoop b b.complexity_groups []

/-- `n` successive calls of `export`, each starting from the backend
state the previous call returned. -/
def exportTimes : Backend → Nat → List (List TargetFunction)
  | _, 0 => []
  | b, n + 1 => (exportS b).2 :: exportTimes (exportS b).1 n

/-- The per-call weight of the amended C5 formula: `0` when the callee
has no record, otherwise the table weight of the callee's bare name
fragment (`0` when absent from the table). -/
def callWeight (sens : List (String × ℚ)) (st : Store) (fallback : String)
    (c : Nat) : ℚ :=
  match List.lookup c st with
  | none => 0
  | some called => (List.lookup (nameFragment called.name fallback) sens).getD 0

/-- Feed for the C5 witness: `F` calls `lib.memcpy` twice and
`lib.strlen` once (the §8 scenario of the specification). -/
def feedC5 : List FeedEntry :=
  [⟨⟨"F", 1, 0, 1⟩, [⟨"CALL", 2⟩, ⟨"CALL", 2⟩, ⟨"CALL", 3⟩], []⟩,
   ⟨⟨"lib.memcpy", 2, 0, 1⟩, [], []⟩,
   ⟨⟨"lib.strlen", 3, 0, 1⟩, [], []⟩]

/-- Two-function feed whose functions land in the same complexity class
with equal vulnerability scores: the tie that makes the original C6
false. -/
def feedC6 : List FeedEntry :=
  [⟨⟨"fa", 1, 10, 3⟩, [], [⟨0, "load"⟩]⟩,
   ⟨⟨"fb", 2, 10, 3⟩, [], [⟨0, "load"⟩]⟩]

/-- `qCmp a b` answers `Greater` exactly when `b < a`. -/
theorem qCmp_eq_gt_iff (a b : ℚ) : qCmp a b = Ordering.gt ↔ b < a := by
  unfold qCmp
  split_ifs with h1 h2
  · simp [asymm h1, lt_asymm h1]
  · subst h2; simp
  · simp [lt_of_le_of_ne (le_of_not_lt h1) (Ne.symm h2)]

/-- `totalCmp x y ≠ Greater` is the "x is at most y" half of the total
order: reflexive-, total- and transitive-friendly characterisation. -/
theorem totalCmp_ne_gt_trans {x y z : F64} (h1 : totalCmp x y ≠ Ordering.gt)
    (h2 : totalCmp y z ≠ Ordering.gt) : totalCmp x z ≠ Ordering.gt := by
  rcases x with _ | a <;> rcases y with _ | b <;> rcases z with _ | c <;>
    simp [totalCmp] at *
  rw [qCmp_eq_gt_iff] at h1 h2 ⊢
  rw [not_lt] at h1 h2 ⊢
  exact h1.trans h2

/-- Totality of `totalCmp x y ≠ Greater`. -/
theorem totalCmp_ne_gt_total (x y : F64) :
    totalCmp x y ≠ Ordering.gt ∨ totalCmp y x ≠ Ordering.gt := by
  rcases x with _ | a <;> rcases y with _ | b <;> simp [totalCmp]
  rw [qCmp_eq_gt_iff, qCmp_eq_gt_iff, not_lt, not_lt]
  exact le_total a b

/-- Transitivity of the ranking comparator. -/
theorem rankLe_trans (st : Store) (a b c : Nat) :
    rankLe st a b → rankLe st b c → rankLe st a c := fun h1 h2 =>
  totalCmp_ne_gt_trans h2 h1

/-- Totality of the ranking comparator. -/
theorem rankLe_total (st : Store) (a b : Nat) : rankLe st a b ∨ rankLe st b a :=
  (totalCmp_ne_gt_total (scoreAt st b) (scoreAt st a)).elim Or.inl Or.inr

/-! ### `floorLn` computes the floor of the natural logarithm

The table `lnThresholds` lists the integers `⌈e^k⌉` for `k = 1, …, 44`;
the lemmas below verify each entry against `Real.exp` using a
24-decimal-digit rational enclosure of `e`, and conclude that `floorLn`
agrees with `⌊Real.log⌋` on the whole `u64` range. -/

/-- A 24-digit approximation of `e`, via the partial sums of its series
(the machinery behind Mathlib's 10- and 20-digit versions). -/
theorem exp_one_near_24 :
    |Real.exp 1 - 2718281828459045235360287 / 10 ^ 24| ≤ 1 / 10 ^ 24 := by
  apply Real.exp_approx_start
  iterate 25 refine Real.exp_1_approx_succ_eq (by norm_num1; rfl) (by norm_cast) ?_
  norm_num1
  refine Real.exp_approx_end' _ (by norm_num1; rfl) _ (by norm_cast) (by simp) ?_
  rw [abs_one, abs_of_pos] <;> norm_num1

/-- Rational lower bound of `e`. -/
theorem exp_one_gt_24 : (2718281828459045235360285 : ℝ) / 10 ^ 24 < Real.exp 1 :=
  lt_of_lt_of_le (by norm_num) (sub_le_comm.1 (abs_sub_le_iff.1 exp_one_near_24).2)

/-- Rational upper bound of `e`. -/
theorem exp_one_lt_24 : Real.exp 1 < (2718281828459045235360289 : ℝ) / 10 ^ 24 :=
  lt_of_le_of_lt (sub_le_iff_le_add.1 (abs_sub_le_iff.1 exp_one_near_24).1) (by norm_num)

/-- Rational lower bound of `e ^ k`. -/
theorem expk_gt (k : ℕ) (hk : k ≠ 0) :
    ((2718281828459045235360285 : ℝ) / 10 ^ 24) ^ k < Real.exp k := by
  have h := Real.exp_nat_mul 1 k
  rw [mul_one] at h
  rw [h]
  exact pow_lt_pow_left₀ exp_one_gt_24 (by norm_num) hk

/-- Rational upper bound of `e ^ k`. -/
theorem expk_lt (k : ℕ) (hk : k ≠ 0) :
    Real.exp k < ((2718281828459045235360289 : ℝ) / 10 ^ 24) ^ k := by
  have h := Real.exp_nat_mul 1 k
  rw [mul_one] at h
  rw [h]
  exact pow_lt_pow_left₀ exp_one_lt_24 (Real.exp_pos 1).le hk

/-- `T = ⌈e ^ k⌉` certified by the two rational comparisons. -/
theorem thresh_pair (k T : ℕ) (hk : k ≠ 0)
    (h1 : (T : ℝ) - 1 < ((2718281828459045235360285 : ℝ) / 10 ^ 24) ^ k)
    (h2 : ((2718281828459045235360289 : ℝ) / 10 ^ 24) ^ k < T) :
    ((T : ℝ) - 1 < Real.exp k) ∧ Real.exp k < T :=
  ⟨h1.trans (expk_gt k hk), (expk_lt k hk).trans h2⟩

/-- Every entry of `lnThresholds` is correct. -/
theorem threshOK_lnThresholds : ThreshOK 0 lnThresholds := by
  show ThreshOK 0 [3, 8, 21, 55, 149, 404, 1097, 2981, 8104, 22027, 59875,
    162755, 442414, 1202605, 3269018, 8886111, 24154953, 65659970, 178482301,
    485165196, 1318815735, 3584912847, 9744803447, 26489122130, 72004899338,
    195729609429, 532048240602, 1446257064292, 3931334297145, 10686474581525,
    29048849665248, 78962960182681, 214643579785917, 583461742527455,
    1586013452313431, 4311231547115196, 11719142372802612, 31855931757113757,
    86593400423993747, 235385266837019986, 639843493530054950,
    1739274941520501048, 4727839468229346562, 12851600114359308276]
  exact ⟨
    thresh_pair 1 3 (by norm_num) (by norm_num) (by norm_num),
    thresh_pair 2 8 (by norm_num) (by norm_num) (by norm_num),
    thresh_pair 3 21 (by norm_num) (by norm_num) (by norm_num),
    thresh_pair 4 55 (by norm_num) (by norm_num) (by norm_num),
    thresh_pair 5 149 (by norm_num) (by norm_num) (by norm_num),
    thresh_pair 6 404 (by norm_num) (by norm_num) (by norm_num),
    thresh_pair 7 1097 (by norm_num) (by norm_num) (by norm_num),
    thresh_pair 8 2981 (by norm_num) (by norm_num) (by norm_num),
    thresh_pair 9 8104 (by norm_num) (by norm_num) (by norm_num),
    thresh_pair 10 22027 (by norm_num) (by norm_num) (by norm_num),
    thresh_pair 11 59875 (by norm_num) (by norm_num) (by norm_num),
    thresh_pair 12 162755 (by norm_num) (by norm_num) (by norm_num),
    thresh_pair 13 442414 (by norm_num) (by norm_num) (by norm_num),
    thresh_pair 14 1202605 (by norm_num) (by norm_num) (by norm_num),
    thresh_pair 15 3269018 (by norm_num) (by norm_num) (by norm_num),
    thresh_pair 16 8886111 (by norm_num) (by norm_num) (by norm_num),
    thresh_pair 17 24154953 (by norm_num) (by norm_num) (by norm_num),
    thresh_pair 18 65659970 (by norm_num) (by norm_num) (by norm_num),
    thresh_pair 19 178482301 (by norm_num) (by norm_num) (by norm_num),
    thresh_pair 20 485165196 (by norm_num) (by norm_num) (by norm_num),
    thresh_pair 21 1318815735 (by norm_num) (by norm_num) (by norm_num),
    thresh_pair 22 3584912847 (by norm_num) (by norm_num) (by norm_num),
    thresh_pair 23 9744803447 (by norm_num) (by norm_num) (by norm_num),
    thresh_pair 24 26489122130 (by norm_num) (by norm_num) (by norm_num),
    thresh_pair 25 72004899338 (by norm_num) (by norm_num) (by norm_num),
    thresh_pair 26 195729609429 (by norm_num) (by norm_num) (by norm_num),
    thresh_pair 27 532048240602 (by norm_num) (by norm_num) (by norm_num),
    thresh_pair 28 1446257064292 (by norm_num) (by norm_num) (by norm_num),
    thresh_pair 29 3931334297145 (by norm_num) (by norm_num) (by norm_num),
    thresh_pair 30 10686474581525 (by norm_num) (by norm_num) (by norm_num),
    thresh_pair 31 29048849665248 (by norm_num) (by norm_num) (by norm_num),
    thresh_pair 32 78962960182681 (by norm_num) (by norm_num) (by norm_num),
    thresh_pair 33 214643579785917 (by norm_num) (by norm_num) (by norm_num),
    thresh_pair 34 583461742527455 (by norm_num) (by norm_num) (by norm_num),
    thresh_pair 35 1586013452313431 (by norm_num) (by norm_num) (by norm_num),
    thresh_pair 36 4311231547115196 (by norm_num) (by norm_num) (by norm_num),
    thresh_pair 37 11719142372802612 (by norm_num) (by norm_num) (by norm_num),
    thresh_pair 38 31855931757113757 (by norm_num) (by norm_num) (by norm_num),
    thresh_pair 39 86593400423993747 (by norm_num) (by norm_num) (by norm_num),
    thresh_pair 40 235385266837019986 (by norm_num) (by norm_num) (by norm_num),
    thresh_pair 41 639843493530054950 (by norm_num) (by norm_num) (by norm_num),
    thresh_pair 42 1739274941520501048 (by norm_num) (by norm_num) (by norm_num),
    thresh_pair 43 4727839468229346562 (by norm_num) (by norm_num) (by norm_num),
    thresh_pair 44 12851600114359308276 (by norm_num) (by norm_num) (by norm_num),
    trivial⟩
/-- Main counting lemma: if the table holds the values `⌈e^i⌉` for
`i = k + 1, …, k + L.length`, and `c` lies between `e ^ k` and the
power of `e` one past the end of the table, then counting the leading
entries that are `≤ c` locates `c` between two consecutive powers of
`e`. -/
theorem countLE_exp (c : ℕ) :
    ∀ (L : List ℕ) (k : ℕ), ThreshOK k L →
      Real.exp (k : ℕ) ≤ (c : ℝ) →
      (c : ℝ) < Real.exp ((k + L.length + 1 : ℕ) : ℝ) →
      Real.exp ((k + countLE c L : ℕ) : ℝ) ≤ (c : ℝ) ∧
        (c : ℝ) < Real.exp ((k + countLE c L + 1 : ℕ) : ℝ)
  | [], k, _, hlow, hhigh => by
      simp only [countLE, List.length_nil] at hhigh ⊢
      exact ⟨by simpa using hlow, hhigh⟩
  | t :: ts, k, hok, hlow, hhigh => by
      rcases hok with ⟨⟨hl, hu⟩, hok'⟩
      by_cases htc : t ≤ c
      · have hlow' : Real.exp ((k + 1 : ℕ) : ℝ) ≤ (c : ℝ) :=
          hu.le.trans (by exact_mod_cast htc)
        have hhigh' : (c : ℝ) < Real.exp (((k + 1) + ts.length + 1 : ℕ) : ℝ) := by
          have harith : (k + 1) + ts.length + 1 = k + (t :: ts).length + 1 := by
            simp [List.length_cons]; omega
          rw [harith]; exact hhigh
        have ih := countLE_exp c ts (k + 1) hok' hlow' hhigh'
        have hcnt : countLE c (t :: ts) = countLE c ts + 1 := by
          simp [countLE, htc]
        have h1 : k + countLE c (t :: ts) = (k + 1) + countLE c ts := by
          rw [hcnt]; omega
        rw [h1]
        exact ih
      · have hcnt : countLE c (t :: ts) = 0 := by simp [countLE, htc]
        have hct : (c : ℝ) ≤ (t : ℝ) - 1 := by
          have : (c : ℕ) + 1 ≤ t := by omega
          have hcast : ((c + 1 : ℕ) : ℝ) ≤ (t : ℕ) := by exact_mod_cast this
          push_cast at hcast
          linarith
        rw [hcnt]
        constructor
        · simpa using hlow
        · have : (c : ℝ) < Real.exp ((k + 1 : ℕ) : ℝ) := lt_of_le_of_lt hct hl
          simpa using this

/-- `2 ^ 64 < e ^ 45`: the table covers the whole `u64` range. -/
theorem u64_lt_exp45 : ((2 : ℝ) ^ 64 : ℝ) < Real.exp ((45 : ℕ) : ℝ) := by
  have h := expk_gt 45 (by norm_num)
  refine lt_trans (b := ((2718281828459045235360285 : ℝ) / 10 ^ 24) ^ 45) (by norm_num) ?_
  exact_mod_cast h

/-- On the whole `u64` range of nonzero inputs, `floorLn c` is the
unique exponent with `e ^ (floorLn c) ≤ c < e ^ (floorLn c + 1)`. -/
theorem floorLn_between (c : ℕ) (h1 : 1 ≤ c) (h2 : c < 2 ^ 64) :
    Real.exp ((floorLn c : ℕ) : ℝ) ≤ (c : ℝ) ∧
      (c : ℝ) < Real.exp ((floorLn c + 1 : ℕ) : ℝ) := by
  have hlow : Real.exp ((0 : ℕ) : ℝ) ≤ (c : ℝ) := by
    simpa using (by exact_mod_cast h1 : (1 : ℝ) ≤ (c : ℝ))
  have hlen : (0 : ℕ) + lnThresholds.length + 1 = 45 := by decide
  have hhigh : (c : ℝ) < Real.exp (((0 : ℕ) + lnThresholds.length + 1 : ℕ) : ℝ) := by
    rw [hlen]
    refine lt_trans ?_ u64_lt_exp45
    exact_mod_cast h2
  have h := countLE_exp c lnThresholds 0 threshOK_lnThresholds hlow hhigh
  simpa [floorLn] using h

/-- On the whole `u64` range of nonzero inputs, `floorLn` is the floor
of the natural logarithm. -/
theorem floorLn_eq_floor_log (c : ℕ) (h1 : 1 ≤ c) (h2 : c < 2 ^ 64) :
    ((floorLn c : ℕ) : ℤ) = ⌊Real.log (c : ℝ)⌋ := by
  obtain ⟨hle, hlt⟩ := floorLn_between c h1 h2
  have hc : (0 : ℝ) < (c : ℝ) := by exact_mod_cast h1
  symm
  rw [Int.floor_eq_iff]
  constructor
  · rw [show (((floorLn c : ℕ) : ℤ) : ℝ) = ((floorLn c : ℕ) : ℝ) by push_cast; ring]
    exact (Real.le_log_iff_exp_le hc).2 hle
  · rw [show (((floorLn c : ℕ) : ℤ) : ℝ) + 1 = ((floorLn c + 1 : ℕ) : ℝ) by push_cast; ring]
    exact (Real.log_lt_iff_lt_exp hc).2 hlt

/-! ### Association-list toolbox

Generic facts about `List.lookup` on `Nat`-keyed association lists,
about per-entry maps (the shape of the five calculator stages), about
the keyed update used by `get_mut`, and about the sorted insertion used
by the `BTreeMap` model. -/

theorem lookup_cons {κ β : Type} [BEq κ] [LawfulBEq κ] [DecidableEq κ]
    (k a : κ) (b : β) (l : List (κ × β)) :
    List.lookup k ((a, b) :: l) = if k = a then some b else List.lookup k l := by
  by_cases h : k = a
  · subst h; simp [List.lookup]
  · simp [List.lookup, beq_false_of_ne h, h]

theorem lookup_isSome_iff {κ β : Type} [BEq κ] [LawfulBEq κ] [DecidableEq κ]
    (k : κ) (l : List (κ × β)) :
    (List.lookup k l).isSome = true ↔ k ∈ l.map Prod.fst := by
  induction l with
  | nil => simp [List.lookup]
  | cons p l ih =>
      obtain ⟨a, b⟩ := p
      rw [lookup_cons]
      by_cases h : k = a <;> simp [h, ih]

theorem lookup_eq_none_iff {κ β : Type} [BEq κ] [LawfulBEq κ] [DecidableEq κ]
    (k : κ) (l : List (κ × β)) :
    List.lookup k l = none ↔ k ∉ l.map Prod.fst := by
  rw [← lookup_isSome_iff k l]
  cases List.lookup k l <;> simp

theorem lookup_mem {κ β : Type} [BEq κ] [LawfulBEq κ] [DecidableEq κ]
    {k : κ} {b : β} {l : List (κ × β)}
    (h : List.lookup k l = some b) : (k, b) ∈ l := by
  induction l with
  | nil => simp [List.lookup] at h
  | cons p l ih =>
      obtain ⟨a, c⟩ := p
      rw [lookup_cons] at h
      by_cases hk : k = a
      · rw [if_pos hk] at h
        subst hk
        injection h with h
        simp [h]
      · rw [if_neg hk] at h
        exact List.mem_cons_of_mem _ (ih h)

theorem lookup_of_mem_nodup {κ β : Type} [BEq κ] [LawfulBEq κ] [DecidableEq κ]
    {k : κ} {b : β} {l : List (κ × β)}
    (hnd : (l.map Prod.fst).Nodup) (hm : (k, b) ∈ l) :
    List.lookup k l = some b := by
  induction l with
  | nil => simp at hm
  | cons p l ih =>
      obtain ⟨a, c⟩ := p
      simp only [List.map_cons, List.nodup_cons] at hnd
      rw [lookup_cons]
      rcases List.mem_cons.1 hm with h | h
      · cases h
        simp
      · have hka : k ≠ a := by
          rintro rfl
          exact hnd.1 (List.mem_map.2 ⟨(k, b), h, rfl⟩)
        rw [if_neg hka]
        exact ih hnd.2 h

theorem keys_mapSnd {β : Type} (g : β → β) (l : List (Nat × β)) :
    (l.map fun p => (p.1, g p.2)).map Prod.fst = l.map Prod.fst := by
  induction l with
  | nil => rfl
  | cons p l ih => simp [ih]

theorem lookup_mapSnd {β : Type} (g : β → β) (k : Nat) (l : List (Nat × β)) :
    List.lookup k (l.map fun p => (p.1, g p.2)) = (List.lookup k l).map g := by
  induction l with
  | nil => simp [List.lookup]
  | cons p l ih =>
      obtain ⟨a, b⟩ := p
      simp only [List.map_cons]
      rw [lookup_cons, lookup_cons]
      by_cases h : k = a <;> simp [h, ih]

theorem keys_adjustMap {β : Type} (k : Nat) (h : β → β) (l : List (Nat × β)) :
    ((l.map fun p => if p.1 = k then (p.1, h p.2) else p).map Prod.fst) =
      l.map Prod.fst := by
  induction l with
  | nil => rfl
  | cons p l ih =>
      by_cases hp : p.1 = k <;> simp [hp, ih]

theorem lookup_adjustMap {β : Type} (k k' : Nat) (h : β → β) (l : List (Nat × β)) :
    List.lookup k' (l.map fun p => if p.1 = k then (p.1, h p.2) else p) =
      if k' = k then (List.lookup k l).map h else List.lookup k' l := by
  induction l with
  | nil => by_cases hk : k' = k <;> simp [List.lookup, hk]
  | cons p l ih =>
      obtain ⟨a, b⟩ := p
      simp only [List.map_cons]
      by_cases hak : a = k
      · rw [if_pos hak]
        subst hak
        rw [lookup_cons, lookup_cons, lookup_cons]
        by_cases hk : k' = a <;> simp [hk, ih]
      · rw [if_neg hak]
        rw [lookup_cons, lookup_cons, lookup_cons]
        by_cases hk' : k' = a
        · subst hk'
          have hne : k' ≠ k := hak
          simp [hne]
        · have hka : k ≠ a := fun hh => hak hh.symm
          simp [hk', ih, hka]

theorem mem_bmInsertNew {k : Nat} {g : ComplexityGroup} {p : Nat × ComplexityGroup} :
    ∀ {gs : Groups}, p ∈ bmInsertNew k g gs ↔ p = (k, g) ∨ p ∈ gs
  | [] => by simp [bmInsertNew]
  | (a, b) :: gs => by
      by_cases h : k ≤ a
      · simp [bmInsertNew, h]
      · simp only [bmInsertNew, if_neg h, List.mem_cons, mem_bmInsertNew]
        tauto

theorem keys_bmInsertNew_sorted {k : Nat} {g : ComplexityGroup} {gs : Groups}
    (hs : (gs.map Prod.fst).Pairwise (· < ·)) (hk : k ∉ gs.map Prod.fst) :
    ((bmInsertNew k g gs).map Prod.fst).Pairwise (· < ·) := by
  induction gs with
  | nil => simp [bmInsertNew]
  | cons p gs ih =>
      obtain ⟨a, b⟩ := p
      simp only [List.map_cons, List.mem_cons] at hk
      push_neg at hk
      rw [List.map_cons, List.pairwise_cons] at hs
      by_cases h : k ≤ a
      · have hka : k < a := lt_of_le_of_ne h hk.1
        rw [show bmInsertNew k g ((a, b) :: gs) = (k, g) :: (a, b) :: gs from by
          simp [bmInsertNew, h]]
        rw [List.map_cons, List.map_cons, List.pairwise_cons]
        refine ⟨?_, List.Pairwise.cons hs.1 hs.2⟩
        intro x hx
        rcases List.mem_cons.1 hx with rfl | hx
        · exact hka
        · exact hka.trans (hs.1 x hx)
      · rw [show bmInsertNew k g ((a, b) :: gs) = (a, b) :: bmInsertNew k g gs from by
          simp [bmInsertNew, h]]
        rw [List.map_cons, List.pairwise_cons]
        constructor
        · intro x hx
          rcases List.mem_map.1 hx with ⟨q, hq, rfl⟩
          rcases mem_bmInsertNew.1 hq with rfl | hq
          · exact lt_of_not_le h
          · exact hs.1 _ (List.mem_map.2 ⟨q, hq, rfl⟩)
        · exact ih hs.2 hk.2

theorem lookup_bmInsertNew (k k' : Nat) (g : ComplexityGroup) (gs : Groups)
    (habs : List.lookup k gs = none) :
    List.lookup k' (bmInsertNew k g gs) =
      if k' = k then some g else List.lookup k' gs := by
  induction gs with
  | nil =>
      show List.lookup k' [(k, g)] = _
      rw [lookup_cons]
  | cons p gs ih =>
      obtain ⟨a, b⟩ := p
      rw [lookup_cons] at habs
      have hka : k ≠ a := by
        intro hx
        rw [if_pos hx] at habs
        exact Option.noConfusion habs
      rw [if_neg hka] at habs
      by_cases h : k ≤ a
      · simp only [bmInsertNew, if_pos h]
        rw [lookup_cons, lookup_cons]
      · simp only [bmInsertNew, if_neg h]
        rw [lookup_cons, lookup_cons]
        by_cases hk'a : k' = a
        · subst hk'a
          have hne : k' ≠ k := fun hh => hka hh.symm
          rw [if_pos rfl, if_neg hne, if_pos rfl]
        · rw [if_neg hk'a, if_neg hk'a, ih habs]

/-! ### Invariants of ingestion -/

theorem keys_insertNew (k : Nat) (f : Function) (st : Store) :
    (storeInsertNew k f st).map Prod.fst = st.map Prod.fst ++ [k] := by
  simp [storeInsertNew]

theorem wf_insertNew {k : Nat} {st : Store} (hwf : StoreWF st)
    (hk : k ∉ st.map Prod.fst) : StoreWF (storeInsertNew k (Function.new k) st) := by
  constructor
  · rw [keys_insertNew]
    refine List.Nodup.append hwf.1 (by simp) ?_
    intro a ha hb
    simp only [List.mem_singleton] at hb
    subst hb
    exact hk ha
  · intro p hp
    rcases List.mem_append.1 hp with h | h
    · exact hwf.2 p h
    · simp only [List.mem_singleton] at h
      subst h
      rfl

theorem callersSum_insertNew (k : Nat) (st : Store) :
    callersSum (storeInsertNew k (Function.new k) st) = callersSum st := by
  simp [callersSum, storeInsertNew, Function.new]

theorem wf_adjust {k : Nat} {g : Function → Function} {st : Store}
    (hg : ∀ f, (g f).offset = f.offset) (hwf : StoreWF st) :
    StoreWF (storeAdjust k g st) := by
  constructor
  · rw [show (storeAdjust k g st).map Prod.fst = st.map Prod.fst from
      keys_adjustMap k g st]
    exact hwf.1
  · intro p hp
    rcases List.mem_map.1 hp with ⟨q, hq, rfl⟩
    by_cases h : q.1 = k
    · simp only [if_pos h]
      rw [hg]
      exact hwf.2 q hq
    · simp only [if_neg h]
      exact hwf.2 q hq

theorem mem_adjust_calls {k : Nat} {g : Function → Function} {st : Store}
    (hg : ∀ f, (g f).calls = f.calls) {p : Nat × Function}
    (hp : p ∈ storeAdjust k g st) : ∃ q ∈ st, p.2.calls = q.2.calls := by
  rcases List.mem_map.1 hp with ⟨q, hq, rfl⟩
  by_cases h : q.1 = k
  · exact ⟨q, hq, by simp [if_pos h, hg]⟩
  · exact ⟨q, hq, by simp [if_neg h]⟩

theorem callsClosed_adjust {k : Nat} {g : Function → Function} {st : Store}
    (hg : ∀ f, (g f).calls = f.calls) (hcc : CallsClosed st) :
    CallsClosed (storeAdjust k g st) := by
  intro p hp c hc
  obtain ⟨q, hq, hcalls⟩ := mem_adjust_calls hg hp
  rw [show (storeAdjust k g st).map Prod.fst = st.map Prod.fst from
    keys_adjustMap k g st]
  exact hcc q hq c (hcalls ▸ hc)

theorem adjust_id_of_not_mem {k : Nat} {g : Function → Function} {st : Store}
    (hk : k ∉ st.map Prod.fst) : storeAdjust k g st = st := by
  induction st with
  | nil => rfl
  | cons p st ih =>
      simp only [List.map_cons, List.mem_cons] at hk
      push_neg at hk
      simp only [storeAdjust, List.map_cons]
      rw [if_neg (fun h => hk.1 h.symm)]
      have := ih hk.2
      simp only [storeAdjust] at this
      rw [this]

theorem callersSum_adjust_push {k c : Nat} {st : Store}
    (hnd : (st.map Prod.fst).Nodup) (hk : k ∈ st.map Prod.fst) :
    callersSum (storeAdjust k
      (fun f => { f with callers := f.callers ++ [c] }) st) =
      callersSum st + 1 := by
  induction st with
  | nil => simp at hk
  | cons p st ih =>
      obtain ⟨a, f⟩ := p
      simp only [List.map_cons, List.nodup_cons] at hnd
      simp only [List.map_cons, List.mem_cons] at hk
      by_cases h : a = k
      · subst h
        have hnotin : a ∉ st.map Prod.fst := hnd.1
        simp only [storeAdjust, List.map_cons, if_pos rfl]
        have hid := adjust_id_of_not_mem
          (g := fun f => { f with callers := f.callers ++ [c] }) hnotin
        simp only [storeAdjust] at hid
        rw [hid]
        simp [callersSum]
        omega
      · rcases hk with hk | hk
        · exact absurd hk.symm h
        · simp only [storeAdjust, List.map_cons, if_neg (fun hh => h hh)]
          have := ih hnd.2 hk
          simp only [storeAdjust] at this
          simp only [callersSum, List.map_cons, List.sum_cons] at this ⊢
          omega

theorem keys_adjust_eq (k : Nat) (g : Function → Function) (st : Store) :
    (storeAdjust k g st).map Prod.fst = st.map Prod.fst :=
  keys_adjustMap k g st

/-- Combined invariant carried through the reference loop of
`set_functions`: the store stays well formed and calls-closed, the
pending call-target list is closed, keys only grow, and every `"CALL"`
reference accounts for exactly one new caller entry. -/
theorem ingestRef_fold_inv (caller : Nat) :
    ∀ (refs : List JSONFunctionReference) (st : Store) (cs : List Nat),
      StoreWF st → CallsClosed st → (∀ c ∈ cs, c ∈ st.map Prod.fst) →
      StoreWF (refs.foldl (ingestRef caller) (st, cs)).1 ∧
        CallsClosed (refs.foldl (ingestRef caller) (st, cs)).1 ∧
        (∀ c ∈ (refs.foldl (ingestRef caller) (st, cs)).2,
          c ∈ (refs.foldl (ingestRef caller) (st, cs)).1.map Prod.fst) ∧
        (∀ k, k ∈ st.map Prod.fst →
          k ∈ (refs.foldl (ingestRef caller) (st, cs)).1.map Prod.fst) ∧
        callersSum (refs.foldl (ingestRef caller) (st, cs)).1 =
          callersSum st + (refs.filter fun r => r.type = "CALL").length ∧
        (∀ p ∈ (refs.foldl (ingestRef caller) (st, cs)).1,
          ∃ q, (q ∈ st ∧ p.2.calls = q.2.calls) ∨ p.2.calls = [])
  | [], st, cs, hwf, hcc, hcs => by
      refine ⟨hwf, hcc, hcs, fun k hk => hk, by simp, ?_⟩
      intro p hp
      exact ⟨p, Or.inl ⟨hp, rfl⟩⟩
  | r :: refs, st, cs, hwf, hcc, hcs => by
      by_cases hr : r.type = "CALL"
      · have hstep : ingestRef caller (st, cs) r =
          (storeAdjust r.toAddr
            (fun f => { f with callers := f.callers ++ [caller] })
            (if storeContains r.toAddr st then st
             else storeInsertNew r.toAddr (Function.new r.toAddr) st),
           cs ++ [r.toAddr]) := by
          simp [ingestRef, hr]
        set st1 := if storeContains r.toAddr st then st
             else storeInsertNew r.toAddr (Function.new r.toAddr) st with hst1
        set st2 := storeAdjust r.toAddr
            (fun f => { f with callers := f.callers ++ [caller] }) st1 with hst2
        have hkeys1 : st.map Prod.fst ⊆ st1.map Prod.fst := by
          rw [hst1]
          by_cases h : storeContains r.toAddr st
          · rw [if_pos h]
            exact fun a ha => ha
          · rw [if_neg h, keys_insertNew]
            exact fun a ha => List.mem_append.2 (Or.inl ha)
        have hwf1 : StoreWF st1 := by
          rw [hst1]
          by_cases h : storeContains r.toAddr st
          · rw [if_pos h]; exact hwf
          · rw [if_neg h]
            refine wf_insertNew hwf ?_
            rw [← lookup_isSome_iff]
            simpa [storeContains] using h
        have hcc1 : CallsClosed st1 := by
          rw [hst1]
          by_cases h : storeContains r.toAddr st
          · rw [if_pos h]; exact hcc
          · rw [if_neg h]
            intro p hp c hc
            rw [keys_insertNew]
            rcases List.mem_append.1 hp with hm | hm
            · exact List.mem_append.2 (Or.inl (hcc p hm c hc))
            · simp only [List.mem_singleton] at hm
              subst hm
              simp [Function.new] at hc
        have hmem1 : r.toAddr ∈ st1.map Prod.fst := by
          rw [hst1]
          by_cases h : storeContains r.toAddr st
          · rw [if_pos h]
            rw [← lookup_isSome_iff]
            simpa [storeContains] using h
          · rw [if_neg h, keys_insertNew]
            exact List.mem_append.2 (Or.inr (by simp))
        have hcs1 : callersSum st1 = callersSum st := by
          rw [hst1]
          by_cases h : storeContains r.toAddr st
          · rw [if_pos h]
          · rw [if_neg h, callersSum_insertNew]
        have hwf2 : StoreWF st2 :=
          wf_adjust (fun f => rfl) hwf1
        have hcc2 : CallsClosed st2 :=
          callsClosed_adjust (fun f => rfl) hcc1
        have hkeys2 : st2.map Prod.fst = st1.map Prod.fst :=
          keys_adjust_eq _ _ st1
        have hsum2 : callersSum st2 = callersSum st + 1 := by
          rw [hst2, callersSum_adjust_push hwf1.1 hmem1, hcs1]
        have hcs2 : ∀ c ∈ cs ++ [r.toAddr], c ∈ st2.map Prod.fst := by
          intro c hc
          rw [hkeys2]
          rcases List.mem_append.1 hc with hm | hm
          · exact hkeys1 (hcs c hm)
          · simp only [List.mem_singleton] at hm
            subst hm
            exact hmem1
        have ih := ingestRef_fold_inv caller refs st2 (cs ++ [r.toAddr])
          hwf2 hcc2 hcs2
        have hfold : (r :: refs).foldl (ingestRef caller) (st, cs) =
            refs.foldl (ingestRef caller) (st2, cs ++ [r.toAddr]) := by
          rw [List.foldl_cons, hstep]
        rw [hfold]
        refine ⟨ih.1, ih.2.1, ih.2.2.1, ?_, ?_, ?_⟩
        · intro k hk
          exact ih.2.2.2.1 k (hkeys2 ▸ hkeys1 hk)
        · rw [ih.2.2.2.2.1, hsum2]
          have hlen : ((r :: refs).filter fun r => r.type = "CALL").length =
              ((refs.filter fun r => r.type = "CALL").length) + 1 := by
            simp [List.filter_cons, hr]
          omega
        · intro p hp
          obtain ⟨q, hq⟩ := ih.2.2.2.2.2 p hp
          rcases hq with ⟨hq1, hq2⟩ | hq2
          · rcases List.mem_map.1 (hst2 ▸ hq1) with ⟨q', hq', hqeq⟩
            by_cases hk : q'.1 = r.toAddr
            · subst hqeq
              rw [hst1] at hq'
              by_cases h : storeContains r.toAddr st
              · rw [if_pos h] at hq'
                refine ⟨q', Or.inl ⟨hq', ?_⟩⟩
                simp [if_pos hk, hq2]
              · rw [if_neg h] at hq'
                rcases List.mem_append.1 hq' with hm | hm
                · refine ⟨q', Or.inl ⟨hm, ?_⟩⟩
                  simp [if_pos hk, hq2]
                · simp only [List.mem_singleton] at hm
                  subst hm
                  exact ⟨(r.toAddr, Function.new r.toAddr),
                    Or.inr (by rw [hq2]; simp [Function.new])⟩
            · subst hqeq
              rw [hst1] at hq'
              by_cases h : storeContains r.toAddr st
              · rw [if_pos h] at hq'
                refine ⟨q', Or.inl ⟨hq', ?_⟩⟩
                simp [if_neg hk, hq2]
              · rw [if_neg h] at hq'
                rcases List.mem_append.1 hq' with hm | hm
                · refine ⟨q', Or.inl ⟨hm, ?_⟩⟩
                  simp [if_neg hk, hq2]
                · simp only [List.mem_singleton] at hm
                  subst hm
                  exact ⟨(r.toAddr, Function.new r.toAddr),
                    Or.inr (by rw [hq2]; simp [Function.new])⟩
          · exact ⟨p, Or.inr hq2⟩
      · have hstep : ingestRef caller (st, cs) r = (st, cs) := by
          simp [ingestRef, hr]
        have hfold : (r :: refs).foldl (ingestRef caller) (st, cs) =
            refs.foldl (ingestRef caller) (st, cs) := by
          rw [List.foldl_cons, hstep]
        rw [hfold]
        have ih := ingestRef_fold_inv caller refs st cs hwf hcc hcs
        refine ⟨ih.1, ih.2.1, ih.2.2.1, ih.2.2.2.1, ?_, ih.2.2.2.2.2⟩
        rw [ih.2.2.2.2.1]
        have hlen : ((r :: refs).filter fun r => r.type = "CALL").length =
            (refs.filter fun r => r.type = "CALL").length := by
          simp [List.filter_cons, hr]
        omega

/-- Properties of the "create the record if absent" step. -/
theorem ensure_props (k : Nat) (st : Store) (hwf : StoreWF st)
    (hcc : CallsClosed st) :
    StoreWF (if storeContains k st then st
             else storeInsertNew k (Function.new k) st) ∧
      CallsClosed (if storeContains k st then st
             else storeInsertNew k (Function.new k) st) ∧
      callersSum (if storeContains k st then st
             else storeInsertNew k (Function.new k) st) = callersSum st ∧
      st.map Prod.fst ⊆ (if storeContains k st then st
             else storeInsertNew k (Function.new k) st).map Prod.fst ∧
      k ∈ (if storeContains k st then st
             else storeInsertNew k (Function.new k) st).map Prod.fst := by
  by_cases h : storeContains k st
  · rw [if_pos h]
    refine ⟨hwf, hcc, rfl, fun a ha => ha, ?_⟩
    rw [← lookup_isSome_iff]
    simpa [storeContains] using h
  · rw [if_neg h]
    have hk : k ∉ st.map Prod.fst := by
      rw [← lookup_isSome_iff]
      simpa [storeContains] using h
    refine ⟨wf_insertNew hwf hk, ?_, callersSum_insertNew k st, ?_, ?_⟩
    · intro p hp c hc
      rw [keys_insertNew]
      rcases List.mem_append.1 hp with hm | hm
      · exact List.mem_append.2 (Or.inl (hcc p hm c hc))
      · simp only [List.mem_singleton] at hm
        subst hm
        simp [Function.new] at hc
    · rw [keys_insertNew]
      exact fun a ha => List.mem_append.2 (Or.inl ha)
    · rw [keys_insertNew]
      exact List.mem_append.2 (Or.inr (by simp))

theorem callersSum_adjust_keep {k : Nat} {g : Function → Function} {st : Store}
    (hg : ∀ f, (g f).callers = f.callers) :
    callersSum (storeAdjust k g st) = callersSum st := by
  induction st with
  | nil => rfl
  | cons p st ih =>
      simp only [storeAdjust, List.map_cons] at ih ⊢
      by_cases h : p.1 = k <;>
        simp [callersSum, List.map_cons, if_pos, if_neg, h, hg] at ih ⊢ <;>
        omega

theorem callsClosed_fill {k : Nat} {cs : List Nat} {ops : List JSONOperation}
    {nm : String} {sz cn : Nat} {st : Store}
    (hcc : CallsClosed st) (hcs : ∀ c ∈ cs, c ∈ st.map Prod.fst) :
    CallsClosed (storeAdjust k
      (fun f =>
        { f with
          name := nm, size := sz, cc := cn, calls := f.calls ++ cs,
          operation_list := f.operation_list ++ ops }) st) := by
  intro p hp c hc
  rw [keys_adjust_eq]
  rcases List.mem_map.1 hp with ⟨q, hq, rfl⟩
  by_cases h : q.1 = k
  · simp only [if_pos h] at hc ⊢
    rcases List.mem_append.1 (by simpa using hc) with hm | hm
    · exact hcc q hq c hm
    · exact hcs c hm
  · simp only [if_neg h] at hc ⊢
    exact hcc q hq c hc

/-- One feed entry keeps the store well formed and calls-closed, and
adds exactly its `"CALL"`-reference count to the total number of caller
entries. -/
theorem ingestEntry_inv (st : Store) (e : FeedEntry) (hwf : StoreWF st)
    (hcc : CallsClosed st) :
    StoreWF (ingestEntry st e) ∧ CallsClosed (ingestEntry st e) ∧
      callersSum (ingestEntry st e) = callersSum st + callCount e := by
  obtain ⟨hwf1, hcc1, hsum1, hmono1, hmem1⟩ :=
    ensure_props e.data.offset st hwf hcc
  obtain ⟨hwfp, hccp, hcsp, hmonop, hsump, hcallsp⟩ :=
    ingestRef_fold_inv e.data.offset e.refs _ [] hwf1 hcc1 (by simp)
  simp only [ingestEntry]
  refine ⟨wf_adjust ?_ hwfp, callsClosed_fill hccp hcsp, ?_⟩
  · intro f
    rfl
  refine Eq.trans (callersSum_adjust_keep ?_) ?_
  · intro f
    rfl
  · rw [hsump, hsum1]
    rfl

/-- Accumulated form of the ingestion invariant. -/
theorem set_functions_fold_inv :
    ∀ (feed : List FeedEntry) (st : Store), StoreWF st → CallsClosed st →
      StoreWF (feed.foldl ingestEntry st) ∧
        CallsClosed (feed.foldl ingestEntry st) ∧
        callersSum (feed.foldl ingestEntry st) =
          callersSum st + (feed.map callCount).sum
  | [], st, hwf, hcc => ⟨hwf, hcc, by simp⟩
  | e :: feed, st, hwf, hcc => by
      obtain ⟨hwf1, hcc1, hsum1⟩ := ingestEntry_inv st e hwf hcc
      obtain ⟨hwf2, hcc2, hsum2⟩ :=
        set_functions_fold_inv feed (ingestEntry st e) hwf1 hcc1
      refine ⟨hwf2, hcc2, ?_⟩
      rw [List.foldl_cons] at *
      rw [hsum2, hsum1]
      simp [List.map_cons]
      omega

/-- After ingestion the store is well formed (distinct keys, records
filed under their own offset), every called address has a record, and
the caller entries add up to the number of `"CALL"` references in the
feed. -/
theorem set_functions_inv (feed : List FeedEntry) :
    StoreWF (set_functions feed) ∧ CallsClosed (set_functions feed) ∧
      callersSum (set_functions feed) = (feed.map callCount).sum := by
  obtain ⟨h1, h2, h3⟩ :=
    set_functions_fold_inv feed [] ⟨by simp, by simp⟩ (by intro p hp; simp at hp)
  exact ⟨h1, h2, by simpa [callersSum] using h3⟩

/-! ### The calculator stages as per-entry maps -/

theorem keys_storeAtGrouping (feed : List FeedEntry) :
    (storeAtGrouping feed).map Prod.fst = (set_functions feed).map Prod.fst := by
  unfold storeAtGrouping calculate_complexity_index calculate_reference_relationship
  rw [keys_mapSnd, keys_mapSnd]

theorem lookup_storeAtGrouping (k : Nat) (feed : List FeedEntry) :
    List.lookup k (storeAtGrouping feed) =
      (List.lookup k (set_functions feed)).map preGroupUpd := by
  unfold storeAtGrouping calculate_complexity_index calculate_reference_relationship
  rw [lookup_mapSnd, lookup_mapSnd, Option.map_map]
  rfl

theorem keys_scoredStore (sens : List (String × ℚ)) (feed : List FeedEntry) :
    (scoredStore sens feed).map Prod.fst = (set_functions feed).map Prod.fst := by
  unfold scoredStore calculate_vulnerability_feature_index
    calculate_memory_operation_count calculate_sensitivity_function_call_index
  rw [keys_mapSnd, keys_mapSnd, keys_mapSnd, keys_storeAtGrouping]

theorem lookup_scoredStore (sens : List (String × ℚ)) (feed : List FeedEntry)
    (k : Nat) :
    List.lookup k (scoredStore sens feed) =
      (List.lookup k (storeAtGrouping feed)).map
        (scoreUpd sens (storeAtGrouping feed)) := by
  unfold scoredStore calculate_vulnerability_feature_index
    calculate_memory_operation_count calculate_sensitivity_function_call_index
  rw [lookup_mapSnd, lookup_mapSnd, lookup_mapSnd, Option.map_map, Option.map_map]
  rfl

theorem wf_mapSnd (g : Function → Function) (st : Store)
    (hg : ∀ f, (g f).offset = f.offset) (hwf : StoreWF st) :
    StoreWF (st.map fun p => (p.1, g p.2)) := by
  constructor
  · rw [keys_mapSnd]
    exact hwf.1
  · intro p hp
    rcases List.mem_map.1 hp with ⟨q, hq, rfl⟩
    simpa [hg] using hwf.2 q hq

theorem wf_storeAtGrouping (feed : List FeedEntry) :
    StoreWF (storeAtGrouping feed) := by
  unfold storeAtGrouping calculate_complexity_index calculate_reference_relationship
  exact wf_mapSnd _ _ (fun f => rfl)
    (wf_mapSnd _ _ (fun f => rfl) (set_functions_inv feed).1)

theorem wf_scoredStore (sens : List (String × ℚ)) (feed : List FeedEntry) :
    StoreWF (scoredStore sens feed) := by
  unfold scoredStore calculate_vulnerability_feature_index
    calculate_memory_operation_count calculate_sensitivity_function_call_index
  exact wf_mapSnd _ _ (fun f => rfl)
    (wf_mapSnd _ _ (fun f => rfl)
      (wf_mapSnd _ _ (fun f => rfl) (wf_storeAtGrouping feed)))

/-! ### Structure of the complexity groups -/

theorem gMembers_step (gs : Groups) (f : Function) (k : Nat) :
    gMembers (groupStep gs f) k =
      gMembers gs k ++
        (if 0 < f.complex_f ∧ f.complex_f = k then [f.offset] else []) := by
  by_cases hm : 0 < f.complex_f
  · have hstep : groupStep gs f = bmAdjust f.complex_f
        (fun g => { g with functions := g.functions ++ [f.offset] })
        (if bmContains f.complex_f gs then gs
         else bmInsertNew f.complex_f (ComplexityGroup.new f.complex_f) gs) := by
      simp [groupStep, hm]
    rw [hstep]
    unfold gMembers bmAdjust
    rw [lookup_adjustMap f.complex_f k
      (fun g : ComplexityGroup => { g with functions := g.functions ++ [f.offset] })]
    by_cases hk : k = f.complex_f
    · subst hk
      rw [if_pos rfl]
      rw [if_pos (show 0 < f.complex_f ∧ f.complex_f = f.complex_f from
        ⟨hm, rfl⟩)]
      by_cases hc : bmContains f.complex_f gs
      · rw [if_pos hc]
        have hsome : (List.lookup f.complex_f gs).isSome := by
          simpa [bmContains] using hc
        rcases hlk : List.lookup f.complex_f gs with _ | g
        · rw [hlk] at hsome; simp at hsome
        · simp
      · rw [if_neg hc]
        have habs : List.lookup f.complex_f gs = none := by
          rcases hlk : List.lookup f.complex_f gs with _ | g
          · rfl
          · exact absurd (by simp [bmContains, hlk]) hc
        rw [lookup_bmInsertNew f.complex_f f.complex_f _ gs habs, if_pos rfl,
          habs]
        simp [ComplexityGroup.new]
    · rw [if_neg hk]
      rw [if_neg (show ¬(0 < f.complex_f ∧ f.complex_f = k) from
        fun hh => hk hh.2.symm)]
      by_cases hc : bmContains f.complex_f gs
      · rw [if_pos hc]
        simp
      · rw [if_neg hc]
        have habs : List.lookup f.complex_f gs = none := by
          rcases hlk : List.lookup f.complex_f gs with _ | g
          · rfl
          · exact absurd (by simp [bmContains, hlk]) hc
        rw [lookup_bmInsertNew f.complex_f k _ gs habs, if_neg hk]
        simp
  · have hstep : groupStep gs f = gs := by simp [groupStep, hm]
    rw [hstep]
    rw [if_neg (show ¬(0 < f.complex_f ∧ f.complex_f = k) from
      fun hh => hm hh.1)]
    simp

theorem gMembers_foldl :
    ∀ (order : List Function) (gs : Groups) (k : Nat),
      gMembers (order.foldl groupStep gs) k =
        gMembers gs k ++
          ((order.filter fun f =>
            decide (0 < f.complex_f ∧ f.complex_f = k)).map Function.offset)
  | [], gs, k => by simp
  | f :: order, gs, k => by
      rw [List.foldl_cons, gMembers_foldl order (groupStep gs f) k,
        gMembers_step gs f k]
      rw [List.filter_cons]
      by_cases h : 0 < f.complex_f ∧ f.complex_f = k
      · rw [if_pos h, if_pos (decide_eq_true h)]
        simp
      · rw [if_neg h, if_neg (fun hd => h (of_decide_eq_true hd))]
        simp

/-- The member list of group `k` consists of the offsets of the visited
functions whose `complex_f` equals `k`, in visit order; only indices
`> 0` have groups. -/
theorem gMembers_group_functions (order : List Function) (k : Nat) :
    gMembers (group_functions order) k =
      ((order.filter fun f =>
        decide (0 < f.complex_f ∧ f.complex_f = k)).map Function.offset) := by
  unfold group_functions
  rw [gMembers_foldl]
  simp [gMembers, List.lookup]

theorem groups_entry_inv :
    ∀ (order : List Function) (gs : Groups),
      (∀ p ∈ gs, p.2.complex_f = p.1 ∧ 0 < p.1) →
      ∀ p ∈ order.foldl groupStep gs, p.2.complex_f = p.1 ∧ 0 < p.1
  | [], gs, hinv => hinv
  | f :: order, gs, hinv => by
      rw [List.foldl_cons]
      refine groups_entry_inv order (groupStep gs f) ?_
      intro p hp
      by_cases hm : 0 < f.complex_f
      · have hstep : groupStep gs f = bmAdjust f.complex_f
            (fun g => { g with functions := g.functions ++ [f.offset] })
            (if bmContains f.complex_f gs then gs
             else bmInsertNew f.complex_f (ComplexityGroup.new f.complex_f) gs) := by
          simp [groupStep, hm]
        rw [hstep] at hp
        rcases List.mem_map.1 hp with ⟨q, hq, rfl⟩
        have hq' : q.2.complex_f = q.1 ∧ 0 < q.1 := by
          by_cases hc : bmContains f.complex_f gs
          · rw [if_pos hc] at hq
            exact hinv q hq
          · rw [if_neg hc] at hq
            rcases mem_bmInsertNew.1 hq with rfl | hq
            · exact ⟨rfl, hm⟩
            · exact hinv q hq
        by_cases h : q.1 = f.complex_f
        · rw [if_pos h]
          exact ⟨hq'.1, hq'.2⟩
        · rw [if_neg h]
          exact hq'
      · have hstep : groupStep gs f = gs := by simp [groupStep, hm]
        rw [hstep] at hp
        exact hinv p hp

theorem groups_keys_sorted :
    ∀ (order : List Function) (gs : Groups),
      ((gs.map Prod.fst).Pairwise (· < ·)) →
      (((order.foldl groupStep gs).map Prod.fst).Pairwise (· < ·))
  | [], gs, hs => hs
  | f :: order, gs, hs => by
      rw [List.foldl_cons]
      refine groups_keys_sorted order (groupStep gs f) ?_
      by_cases hm : 0 < f.complex_f
      · have hstep : groupStep gs f = bmAdjust f.complex_f
            (fun g => { g with functions := g.functions ++ [f.offset] })
            (if bmContains f.complex_f gs then gs
             else bmInsertNew f.complex_f (ComplexityGroup.new f.complex_f) gs) := by
          simp [groupStep, hm]
        rw [hstep]
        unfold bmAdjust
        rw [keys_adjustMap f.complex_f
          (fun g : ComplexityGroup => { g with functions := g.functions ++ [f.offset] })]
        by_cases hc : bmContains f.complex_f gs
        · rw [if_pos hc]
          exact hs
        · rw [if_neg hc]
          refine keys_bmInsertNew_sorted hs ?_
          rw [← lookup_isSome_iff]
          simpa [bmContains] using hc
      · have hstep : groupStep gs f = gs := by simp [groupStep, hm]
        rw [hstep]
        exact hs

theorem group_functions_keys_sorted (order : List Function) :
    (((group_functions order).map Prod.fst).Pairwise (· < ·)) :=
  groups_keys_sorted order [] (by simp)

theorem group_functions_entry_inv (order : List Function) :
    ∀ p ∈ group_functions order, p.2.complex_f = p.1 ∧ 0 < p.1 :=
  groups_entry_inv order [] (by simp)

/-- A group entry's member list is the `gMembers` of its key. -/
theorem functions_eq_gMembers {gs : Groups}
    (hnd : (gs.map Prod.fst).Nodup) {p : Nat × ComplexityGroup} (hp : p ∈ gs) :
    p.2.functions = gMembers gs p.1 := by
  obtain ⟨k, g⟩ := p
  unfold gMembers
  rw [lookup_of_mem_nodup hnd hp]

/-! ### Ranking and export -/

theorem rank_sorted (st : Store) (l : List Nat) :
    (List.insertionSort (rankLe st) l).Pairwise (rankLe st) :=
  haveI : IsTotal Nat (rankLe st) := ⟨rankLe_total st⟩
  haveI : IsTrans Nat (rankLe st) := ⟨rankLe_trans st⟩
  List.sorted_insertionSort (rankLe st) l

theorem rank_perm (st : Store) (l : List Nat) :
    (List.insertionSort (rankLe st) l).Perm l :=
  List.perm_insertionSort (rankLe st) l

theorem keys_rank (st : Store) (gs : Groups) :
    (rank_functions st gs).map Prod.fst = gs.map Prod.fst :=
  keys_mapSnd (rankUpd st) gs

/-- If the comparator does not put `a` above `b` in either direction,
the two scores are `total_cmp`-equal. -/
theorem totalCmp_eq_of_le_le {x y : F64} (h1 : totalCmp x y ≠ Ordering.gt)
    (h2 : totalCmp y x ≠ Ordering.gt) : totalCmp x y = Ordering.eq := by
  rcases x with _ | a <;> rcases y with _ | b <;> simp [totalCmp] at *
  rw [qCmp_eq_gt_iff, not_lt] at h1 h2
  have hab : a = b := le_antisymm h1 h2
  simp [qCmp, hab]

/-- In a comparator-descending list, an undefined score is never
followed by a defined one. -/
theorem rankLe_none_propagates {st : Store} {a b : Nat} (h : rankLe st a b)
    (ha : scoreAt st a = none) : scoreAt st b = none := by
  unfold rankLe at h
  rw [ha] at h
  rcases hb : scoreAt st b with _ | q
  · rfl
  · rw [hb] at h
    simp [totalCmp] at h

/-- `export`'s inner loop emits the first member that resolves to a
strictly positive score, and nothing when no member qualifies. -/
theorem exportGroup_eq_head (st : Store) :
    ∀ l : List Nat, exportGroup st l = (l.filterMap (qualTarget st)).head?
  | [] => rfl
  | a :: l => by
      rw [List.filterMap_cons]
      unfold exportGroup qualTarget
      rcases hl : List.lookup a st with _ | f
      · simp only [hl]
        exact exportGroup_eq_head st l
      · simp only [hl]
        by_cases h : fGt0 f.vulnerability_f
        · simp only [if_pos h]
          simp
        · simp only [if_neg h]
          rw [exportGroup_eq_head st l]
          rfl

theorem exportTargets_foldl_aux (st : Store) :
    ∀ (gs : Groups) (acc : List TargetFunction),
      gs.foldl
        (fun acc p =>
          match exportGroup st p.2.functions with
          | some t => acc ++ [t]
          | none => acc) acc =
        acc ++ gs.filterMap fun p => exportGroup st p.2.functions
  | [], acc => by simp
  | p :: gs, acc => by
      rw [List.foldl_cons, List.filterMap_cons]
      rcases h : exportGroup st p.2.functions with _ | t
      · rw [exportTargets_foldl_aux st gs acc]
      · rw [exportTargets_foldl_aux st gs (acc ++ [t])]
        simp

/-- `export` collects, over the groups in ascending key order, the
first qualifying member of each group. -/
theorem exportTargets_eq_filterMap (st : Store) (gs : Groups) :
    exportTargets st gs = gs.filterMap fun p => exportGroup st p.2.functions := by
  unfold exportTargets
  rw [exportTargets_foldl_aux st gs []]
  rfl

/-- Anatomy of an emitted target: it comes from a member of the group
whose stored record has a strictly positive score. -/
theorem exportGroup_some {st : Store} :
    ∀ {l : List Nat} {t : TargetFunction}, exportGroup st l = some t →
      ∃ a ∈ l, ∃ f, List.lookup a st = some f ∧
        fGt0 f.vulnerability_f = true ∧
        t = TargetFunction.new f.offset f.name f.complex_f f.vulnerability_f
  | [], t, h => by simp [exportGroup] at h
  | a :: l, t, h => by
      unfold exportGroup at h
      rcases hl : List.lookup a st with _ | f
      · rw [hl] at h
        obtain ⟨b, hb, hrest⟩ := exportGroup_some h
        exact ⟨b, List.mem_cons_of_mem a hb, hrest⟩
      · rw [hl] at h
        simp only at h
        by_cases hq : fGt0 f.vulnerability_f
        · rw [if_pos hq] at h
          injection h with h
          exact ⟨a, List.mem_cons_self a l, f, hl, hq, h.symm⟩
        · rw [if_neg hq] at h
          obtain ⟨b, hb, hrest⟩ := exportGroup_some h
          exact ⟨b, List.mem_cons_of_mem a hb, hrest⟩

/-! ### From group members to scored records -/

/-- A member of complexity group `k` resolves in the final store to a
record whose `complex_f` is `k` and whose `offset` is the member
address itself. -/
theorem member_record (sens : List (String × ℚ)) {feed : List FeedEntry}
    {order : List Function}
    (horder : order.Perm ((storeAtGrouping feed).map Prod.snd))
    {k a : Nat} (ha : a ∈ gMembers (group_functions order) k) :
    ∃ f, List.lookup a (scoredStore sens feed) = some f ∧
      f.complex_f = k ∧ f.offset = a ∧ 0 < k := by
  rw [gMembers_group_functions] at ha
  rcases List.mem_map.1 ha with ⟨f₀, hf₀, rfl⟩
  rw [List.mem_filter] at hf₀
  obtain ⟨hmem, hcond⟩ := hf₀
  have hc := of_decide_eq_true hcond
  have hmem2 : f₀ ∈ (storeAtGrouping feed).map Prod.snd := horder.mem_iff.1 hmem
  rcases List.mem_map.1 hmem2 with ⟨⟨a₀, g₀⟩, hp, hf⟩
  have hf : g₀ = f₀ := hf
  subst hf
  have hoff : g₀.offset = a₀ := (wf_storeAtGrouping feed).2 _ hp
  have hlk : List.lookup a₀ (storeAtGrouping feed) = some g₀ :=
    lookup_of_mem_nodup (wf_storeAtGrouping feed).1 hp
  refine ⟨scoreUpd sens (storeAtGrouping feed) g₀, ?_, hc.2, ?_, ?_⟩
  · rw [hoff, lookup_scoredStore, hlk]
    rfl
  · exact hoff ▸ rfl
  · exact hc.2 ▸ hc.1

/-- A target emitted from a ranked group carries the group's key as its
complexity, and its address is a member of the group. -/
theorem export_complexity (sens : List (String × ℚ)) {feed : List FeedEntry}
    {order : List Function}
    (horder : order.Perm ((storeAtGrouping feed).map Prod.snd))
    {p : Nat × ComplexityGroup}
    (hp : p ∈ rank_functions (scoredStore sens feed) (group_functions order))
    {t : TargetFunction}
    (ht : exportGroup (scoredStore sens feed) p.2.functions = some t) :
    t.complexity = p.1 ∧ 0 < p.1 ∧
      t.address ∈ gMembers (group_functions order) p.1 := by
  rcases List.mem_map.1 hp with ⟨⟨k, g⟩, hq, hpq⟩
  subst hpq
  obtain ⟨a, hal, f, hlf, hq1, ht⟩ := exportGroup_some ht
  subst ht
  have ham : a ∈ g.functions := by
    have hperm := rank_perm (scoredStore sens feed) g.functions
    exact hperm.mem_iff.1 hal
  have hnd : ((group_functions order).map Prod.fst).Nodup :=
    (group_functions_keys_sorted order).imp ne_of_lt
  have hgm : g.functions = gMembers (group_functions order) k :=
    functions_eq_gMembers hnd hq
  rw [hgm] at ham
  obtain ⟨f', hlf', hfc, hfo, hk⟩ := member_record sens horder ham
  rw [hlf] at hlf'
  injection hlf' with hff
  subst hff
  exact ⟨hfc, hk, hfo ▸ ham⟩

/-! ## Claim theorems -/

/-- **C2.** For every function record, the derived `complexityIndex`
equals `floor (ln structuralComplexity) + callInCount` — computed in
real arithmetic and truncated — and for `structuralComplexity == 0` the
logarithm term is clamped to `0` (the saturating `as u64` cast sends
`-∞` to `0`), so `complexityIndex = callInCount` there. -/
theorem claim_C2 (st : Store) (p : Nat × Function)
    (hp : p ∈ calculate_complexity_index st) :
    p.2.complex_f = floorLn p.2.cc + p.2.x_f ∧
      (p.2.cc = 0 → p.2.complex_f = p.2.x_f) ∧
      (1 ≤ p.2.cc → p.2.cc < 2 ^ 64 →
        (p.2.complex_f : ℤ) = ⌊Real.log (p.2.cc : ℝ)⌋ + (p.2.x_f : ℤ)) := by
  rcases List.mem_map.1 hp with ⟨q, hq, rfl⟩
  refine ⟨rfl, ?_, ?_⟩
  · intro h0
    show floorLn q.2.cc + q.2.x_f = q.2.x_f
    have hcc : q.2.cc = 0 := h0
    rw [hcc]
    have : floorLn 0 = 0 := by decide
    rw [this]
    omega
  · intro h1 h2
    have hlog := floorLn_eq_floor_log q.2.cc h1 h2
    show ((floorLn q.2.cc + q.2.x_f : ℕ) : ℤ) = _
    rw [show (cciUpd q.2).cc = q.2.cc from rfl,
      show (cciUpd q.2).x_f = q.2.x_f from rfl, ← hlog]
    push_cast
    ring

theorem claim_C2_witness :
    ((5, cciUpd { Function.new 5 with cc := 3, x_f := 2 }) ∈
        calculate_complexity_index
          [(5, { Function.new 5 with cc := 3, x_f := 2 })]) ∧
      ((cciUpd { Function.new 5 with cc := 3, x_f := 2 }).complex_f =
          floorLn (cciUpd { Function.new 5 with cc := 3, x_f := 2 }).cc +
            (cciUpd { Function.new 5 with cc := 3, x_f := 2 }).x_f ∧
        ((cciUpd { Function.new 5 with cc := 3, x_f := 2 }).cc = 0 →
          (cciUpd { Function.new 5 with cc := 3, x_f := 2 }).complex_f =
            (cciUpd { Function.new 5 with cc := 3, x_f := 2 }).x_f) ∧
        (1 ≤ (cciUpd { Function.new 5 with cc := 3, x_f := 2 }).cc →
          (cciUpd { Function.new 5 with cc := 3, x_f := 2 }).cc < 2 ^ 64 →
          ((cciUpd { Function.new 5 with cc := 3, x_f := 2 }).complex_f : ℤ) =
            ⌊Real.log ((cciUpd { Function.new 5 with cc := 3, x_f := 2 }).cc : ℝ)⌋ +
              ((cciUpd { Function.new 5 with cc := 3, x_f := 2 }).x_f : ℤ))) :=
  ⟨by decide,
    claim_C2 [(5, { Function.new 5 with cc := 3, x_f := 2 })]
      (5, cciUpd { Function.new 5 with cc := 3, x_f := 2 }) (by decide)⟩

/-- **C3.** `rank_functions` sorts every group's member list by
`vulnerabilityScore` descending under the total order `totalCmp`, in
which an undefined score (`none`, the NaN of `0.0 / 0.0`) sorts below
every defined score and two undefined scores are equal; consequently no
member with an undefined score precedes a member with a defined one.
`rankLe st a b` states that the comparator does not order `a` above `b`
(descending by score), so `Pairwise (rankLe st)` is exactly
"sorted by `vulnerabilityScore` descending". -/
theorem claim_C3 (st : Store) (gs : Groups) (p : Nat × ComplexityGroup)
    (hp : p ∈ rank_functions st gs) :
    (∃ q ∈ gs, p.1 = q.1 ∧ p.2.functions.Perm q.2.functions) ∧
      p.2.functions.Pairwise (rankLe st) ∧
      (∀ x : ℚ, totalCmp none (some x) = Ordering.lt) ∧
      totalCmp none none = Ordering.eq ∧
      p.2.functions.Pairwise
        (fun a b => scoreAt st a = none → scoreAt st b = none) := by
  rcases List.mem_map.1 hp with ⟨q, hq, rfl⟩
  refine ⟨⟨q, hq, rfl, rank_perm st q.2.functions⟩,
    rank_sorted st q.2.functions, fun x => rfl, rfl, ?_⟩
  exact (rank_sorted st q.2.functions).imp
    (fun h ha => rankLe_none_propagates h ha)

theorem claim_C3_witness :
    ((1, rankUpd [] ⟨1, [5, 6]⟩) ∈ rank_functions [] [(1, ⟨1, [5, 6]⟩)]) ∧
      ((∃ q ∈ [((1 : Nat), (⟨1, [5, 6]⟩ : ComplexityGroup))],
          (1, rankUpd [] ⟨1, [5, 6]⟩).1 = q.1 ∧
            (1, rankUpd [] ⟨1, [5, 6]⟩).2.functions.Perm q.2.functions) ∧
        (1, rankUpd [] ⟨1, [5, 6]⟩).2.functions.Pairwise (rankLe []) ∧
        (∀ x : ℚ, totalCmp none (some x) = Ordering.lt) ∧
        totalCmp none none = Ordering.eq ∧
        (1, rankUpd [] ⟨1, [5, 6]⟩).2.functions.Pairwise
          (fun a b => scoreAt [] a = none → scoreAt [] b = none)) :=
  ⟨by with_unfolding_all decide, claim_C3 [] [(1, ⟨1, [5, 6]⟩)] _
    (by with_unfolding_all decide)⟩

/-- **C8.** After ingestion and the reference-relationship stage, every
function's `x_f` equals the length of its `callers` list, and — since
each `"CALL"` reference appends exactly one entry to its callee's
`callers` while references of other kinds are ignored — the sum of
`x_f` over the whole store equals the total number of `"CALL"`
references in the feed. -/
theorem claim_C8 (feed : List FeedEntry) :
    (∀ p ∈ calculate_reference_relationship (set_functions feed),
        p.2.x_f = p.2.callers.length) ∧
      xfSum (calculate_reference_relationship (set_functions feed)) =
        (feed.map callCount).sum := by
  constructor
  · intro p hp
    rcases List.mem_map.1 hp with ⟨q, hq, rfl⟩
    rfl
  · have h1 : xfSum (calculate_reference_relationship (set_functions feed)) =
        callersSum (set_functions feed) := by
      unfold xfSum callersSum calculate_reference_relationship
      rw [List.map_map]
      rfl
    rw [h1, (set_functions_inv feed).2.2]

theorem claim_C8_witness :
    (∀ p ∈ calculate_reference_relationship
        (set_functions [⟨⟨"f", 1, 0, 1⟩, [⟨"CALL", 1⟩, ⟨"DATA", 1⟩], []⟩]),
        p.2.x_f = p.2.callers.length) ∧
      xfSum (calculate_reference_relationship
        (set_functions [⟨⟨"f", 1, 0, 1⟩, [⟨"CALL", 1⟩, ⟨"DATA", 1⟩], []⟩])) =
        ([⟨⟨"f", 1, 0, 1⟩, [⟨"CALL", 1⟩, ⟨"DATA", 1⟩], []⟩].map callCount).sum :=
  claim_C8 _

/-- **C9.** After ingestion, every address appearing in any `calls`
list has a record in the store (bare records are created eagerly on
first sighting of an address as a definition or call target), and no
later stage removes a record: the key sequence of the fully analyzed
store equals the key sequence after ingestion. -/
theorem claim_C9 (sens : List (String × ℚ)) (feed : List FeedEntry)
    (order : List Function) :
    (∀ p ∈ set_functions feed, ∀ c ∈ p.2.calls,
        (List.lookup c (set_functions feed)).isSome = true) ∧
      (analyze sens feed order).functions.map Prod.fst =
        (set_functions feed).map Prod.fst := by
  constructor
  · intro p hp c hc
    rw [lookup_isSome_iff]
    exact (set_functions_inv feed).2.1 p hp c hc
  · exact keys_scoredStore sens feed

theorem claim_C9_witness :
    (∀ p ∈ set_functions [⟨⟨"f", 1, 0, 1⟩, [⟨"CALL", 2⟩], []⟩],
        ∀ c ∈ p.2.calls,
        (List.lookup c (set_functions
          [⟨⟨"f", 1, 0, 1⟩, [⟨"CALL", 2⟩], []⟩])).isSome = true) ∧
      (analyze [] [⟨⟨"f", 1, 0, 1⟩, [⟨"CALL", 2⟩], []⟩] []).functions.map
          Prod.fst =
        (set_functions [⟨⟨"f", 1, 0, 1⟩, [⟨"CALL", 2⟩], []⟩]).map Prod.fst :=
  claim_C9 [] _ []

/-- Helper for C4 and C7: an emitted target's address resolves in the
analyzed store to a record with a strictly positive defined score. -/
theorem export_address_pos {sens : List (String × ℚ)} {feed : List FeedEntry}
    {order : List Function} {t : TargetFunction}
    (ht : t ∈ (analyze sens feed order).exportTargets) :
    ∃ f, List.lookup t.address (scoredStore sens feed) = some f ∧
      fGt0 f.vulnerability_f = true := by
  rw [show (analyze sens feed order).exportTargets =
      exportTargets (scoredStore sens feed)
        (rank_functions (scoredStore sens feed) (group_functions order))
    from rfl, exportTargets_eq_filterMap] at ht
  rcases List.mem_filterMap.1 ht with ⟨p, hp, hpt⟩
  obtain ⟨a, hal, f, hlf, hpos, rfl⟩ := exportGroup_some hpt
  have hoff : f.offset = a :=
    (wf_scoredStore sens feed).2 (a, f) (lookup_mem hlf)
  refine ⟨f, ?_, hpos⟩
  rw [show (TargetFunction.new f.offset f.name f.complex_f
    f.vulnerability_f).address = f.offset from rfl, hoff]
  exact hlf

/-- **C4.** For a function with a non-empty operation list,
`memoryDensity` is the number of `load`/`store` operations divided by
the total operation count, a value in `[0, 1]`; for an empty operation
list both `memoryDensity` and `vulnerabilityScore` are the distinguished
undefined value `none` (never the number `0`), the pipeline still
produces a result for it (the stages are total functions), and no such
function is ever emitted by `export`. -/
theorem claim_C4 (sens : List (String × ℚ)) (feed : List FeedEntry)
    (order : List Function) (p : Nat × Function)
    (hp : p ∈ scoredStore sens feed) :
    (p.2.operation_list ≠ [] →
        p.2.p_f = some ((memOpCount p.2.operation_list : ℚ) /
          (p.2.operation_list.length : ℚ)) ∧
        ∃ q : ℚ, p.2.p_f = some q ∧ 0 ≤ q ∧ q ≤ 1) ∧
      (p.2.operation_list = [] →
        p.2.p_f = none ∧ p.2.vulnerability_f = none ∧
        ∀ t ∈ (analyze sens feed order).exportTargets, t.address ≠ p.1) := by
  have hup : ∃ q ∈ storeAtGrouping feed,
      p = (q.1, scoreUpd sens (storeAtGrouping feed) q.2) := by
    have := lookup_scoredStore sens feed p.1
    have hmem : List.lookup p.1 (scoredStore sens feed) = some p.2 :=
      lookup_of_mem_nodup (wf_scoredStore sens feed).1 (by
        obtain ⟨a, f⟩ := p
        exact hp)
    rw [this] at hmem
    rcases hlk : List.lookup p.1 (storeAtGrouping feed) with _ | f₀
    · rw [hlk] at hmem
      simp at hmem
    · rw [hlk] at hmem
      injection hmem with hmem
    
      exact ⟨(p.1, f₀), lookup_mem hlk, by
        obtain ⟨a, f⟩ := p
        simp only at hmem ⊢
        rw [hmem]⟩
  obtain ⟨q, hq, rfl⟩ := hup
  constructor
  · intro hne
    have hops : (scoreUpd sens (storeAtGrouping feed) q.2).operation_list =
        q.2.operation_list := rfl
    rw [hops] at hne ⊢
    have hlen : q.2.operation_list.length ≠ 0 := fun h =>
      hne (List.length_eq_zero.1 h)
    have hpf : (scoreUpd sens (storeAtGrouping feed) q.2).p_f =
        densityOf q.2.operation_list := rfl
    rw [hpf]
    unfold densityOf
    rw [if_neg hlen]
    refine ⟨rfl, _, rfl, ?_, ?_⟩
    · positivity
    · rw [div_le_one (by positivity)]
      have hle : memOpCount q.2.operation_list ≤ q.2.operation_list.length :=
        List.length_filter_le _ _
      exact_mod_cast hle
  · intro hemp
    have hops : (scoreUpd sens (storeAtGrouping feed) q.2).operation_list =
        q.2.operation_list := rfl
    rw [hops] at hemp
    have hpf : (scoreUpd sens (storeAtGrouping feed) q.2).p_f =
        densityOf q.2.operation_list := rfl
    have hdens : densityOf q.2.operation_list = none := by
      unfold densityOf
      rw [hemp]
      simp
    have hvul : (scoreUpd sens (storeAtGrouping feed) q.2).vulnerability_f =
        fadd (some (sensScore sens (storeAtGrouping feed) q.2))
          (densityOf q.2.operation_list) := rfl
    refine ⟨hpf.trans hdens, ?_, ?_⟩
    · rw [hvul, hdens]
      rfl
    · intro t ht hta
      obtain ⟨f, hlf, hpos⟩ := export_address_pos ht
      rw [hta] at hlf
      have hmem : List.lookup q.1 (scoredStore sens feed) =
          some (scoreUpd sens (storeAtGrouping feed) q.2) :=
        lookup_of_mem_nodup (wf_scoredStore sens feed).1 hp
      rw [hmem] at hlf
      injection hlf with hlf
      rw [← hlf] at hpos
      rw [hvul, hdens] at hpos
      rcases hsf : some (sensScore sens (storeAtGrouping feed) q.2) with _ | y
      · simp at hsf
      · rw [show fadd (some (sensScore sens (storeAtGrouping feed) q.2))
          none = none from rfl] at hpos
        simp [fGt0] at hpos

theorem claim_C4_witness :
    ((1, fnC4) ∈ scoredStore [] feedC4) ∧
      (((1, fnC4) : Nat × Function).2.operation_list ≠ [] →
        ((1, fnC4) : Nat × Function).2.p_f =
            some ((memOpCount ((1, fnC4) : Nat × Function).2.operation_list : ℚ) /
              (((1, fnC4) : Nat × Function).2.operation_list.length : ℚ)) ∧
          ∃ q : ℚ, ((1, fnC4) : Nat × Function).2.p_f = some q ∧
            0 ≤ q ∧ q ≤ 1) :=
  ⟨by with_unfolding_all decide,
    (claim_C4 [] feedC4 [] (1, fnC4) (by with_unfolding_all decide)).1⟩

/-- Helper for C7: a member of any group resolves to the scored version
of the unique record stored under that address. -/
theorem member_unique (sens : List (String × ℚ)) {feed : List FeedEntry}
    {order : List Function}
    (horder : order.Perm ((storeAtGrouping feed).map Prod.snd))
    {a k : Nat} {f : Function}
    (hmem : (a, f) ∈ storeAtGrouping feed)
    (ha : a ∈ gMembers (group_functions order) k) :
    f.complex_f = k ∧ 0 < k := by
  obtain ⟨f', hlf', hfc, hfo, hk⟩ := member_record sens horder ha
  have hl2 : List.lookup a (scoredStore sens feed) =
      some (scoreUpd sens (storeAtGrouping feed) f) := by
    rw [lookup_scoredStore,
      lookup_of_mem_nodup (wf_storeAtGrouping feed).1 hmem]
    rfl
  rw [hl2] at hlf'
  injection hlf' with hlf'
  subst hlf'
  exact ⟨hfc, hk⟩

/-- **C7.** A function whose derived `complexityIndex` is `0` belongs
to no complexity group and is emitted by no export, but it remains
present in the Function Record Store after the whole analysis. -/
theorem claim_C7 (sens : List (String × ℚ)) (feed : List FeedEntry)
    (order : List Function)
    (horder : order.Perm ((storeAtGrouping feed).map Prod.snd))
    (a : Nat) (f : Function) (hmem : (a, f) ∈ storeAtGrouping feed)
    (h0 : f.complex_f = 0) :
    (∀ p ∈ (analyze sens feed order).complexity_groups,
        a ∉ p.2.functions) ∧
      (∀ t ∈ (analyze sens feed order).exportTargets, t.address ≠ a) ∧
      (∃ f', List.lookup a (analyze sens feed order).functions = some f' ∧
        f'.offset = f.offset ∧ f'.complex_f = 0) := by
  have hnd : ((group_functions order).map Prod.fst).Nodup :=
    (group_functions_keys_sorted order).imp ne_of_lt
  refine ⟨?_, ?_, ?_⟩
  · intro p hp hain
    rcases List.mem_map.1 hp with ⟨⟨k, g⟩, hq, hpq⟩
    subst hpq
    have hag : a ∈ g.functions := by
      have hperm := rank_perm (scoredStore sens feed) g.functions
      exact hperm.mem_iff.1 hain
    rw [functions_eq_gMembers hnd hq] at hag
    obtain ⟨hfc, hk⟩ := member_unique sens horder hmem hag
    rw [h0] at hfc
    omega
  · intro t ht hta
    rw [show (analyze sens feed order).exportTargets =
        exportTargets (scoredStore sens feed)
          (rank_functions (scoredStore sens feed) (group_functions order))
      from rfl, exportTargets_eq_filterMap] at ht
    rcases List.mem_filterMap.1 ht with ⟨p, hp, hpt⟩
    obtain ⟨hc, hkpos, haddr⟩ :=
      export_complexity sens horder hp hpt
    rw [hta] at haddr
    obtain ⟨hfc, hk⟩ := member_unique sens horder hmem haddr
    rw [h0] at hfc
    omega
  · refine ⟨scoreUpd sens (storeAtGrouping feed) f, ?_, rfl, h0⟩
    show List.lookup a (scoredStore sens feed) = _
    rw [lookup_scoredStore,
      lookup_of_mem_nodup (wf_storeAtGrouping feed).1 hmem]
    rfl

theorem claim_C7_witness :
    ((fnC7 :: []).Perm ((storeAtGrouping feedC7).map Prod.snd)) ∧
      ((3, fnC7) ∈ storeAtGrouping feedC7) ∧ fnC7.complex_f = 0 ∧
      ((∀ p ∈ (analyze [] feedC7 [fnC7]).complexity_groups,
          3 ∉ p.2.functions) ∧
        (∀ t ∈ (analyze [] feedC7 [fnC7]).exportTargets, t.address ≠ 3) ∧
        (∃ f', List.lookup 3 (analyze [] feedC7 [fnC7]).functions = some f' ∧
          f'.offset = fnC7.offset ∧ f'.complex_f = 0)) :=
  ⟨by with_unfolding_all decide, by with_unfolding_all decide,
    by with_unfolding_all decide,
    claim_C7 [] feedC7 [fnC7] (by with_unfolding_all decide) 3 fnC7
      (by with_unfolding_all decide) (by with_unfolding_all decide)⟩

/-- **C1.** `export` walks the complexity groups in ascending key
order; within each (ranked) group it emits the first member whose
`vulnerabilityScore` is defined and strictly greater than `0` and stops
scanning that group (captured by `qualTarget`/`head?`); a group with no
qualifying member contributes nothing; consequently the output contains
at most one record per complexity class and its `complexityIndex`
values are strictly increasing. -/
theorem claim_C1 (sens : List (String × ℚ)) (feed : List FeedEntry)
    (order : List Function)
    (horder : order.Perm ((storeAtGrouping feed).map Prod.snd)) :
    ((analyze sens feed order).exportTargets.Pairwise
        (fun t u => t.complexity < u.complexity)) ∧
      ((analyze sens feed order).exportTargets =
        (analyze sens feed order).complexity_groups.filterMap fun p =>
          (p.2.functions.filterMap
            (qualTarget (analyze sens feed order).functions)).head?) ∧
      (∀ p ∈ (analyze sens feed order).complexity_groups,
        (∀ b ∈ p.2.functions,
            qualTarget (analyze sens feed order).functions b = none) →
          exportGroup (analyze sens feed order).functions p.2.functions =
            none) := by
  have hkeys : ((rank_functions (scoredStore sens feed)
      (group_functions order)).map Prod.fst).Pairwise (· < ·) := by
    rw [keys_rank]
    exact group_functions_keys_sorted order
  refine ⟨?_, ?_, ?_⟩
  · rw [show (analyze sens feed order).exportTargets =
        exportTargets (scoredStore sens feed)
          (rank_functions (scoredStore sens feed) (group_functions order))
      from rfl, exportTargets_eq_filterMap]
    rw [List.pairwise_filterMap]
    have hpair : (rank_functions (scoredStore sens feed)
        (group_functions order)).Pairwise (fun p q => p.1 < q.1) :=
      List.pairwise_map.1 hkeys
    refine hpair.imp_of_mem ?_
    intro p q hp hq hlt t ht u hu
    have ht' : exportGroup (scoredStore sens feed) p.2.functions = some t :=
      ht
    have hu' : exportGroup (scoredStore sens feed) q.2.functions = some u :=
      hu
    obtain ⟨htc, _, _⟩ := export_complexity sens horder hp ht'
    obtain ⟨huc, _, _⟩ := export_complexity sens horder hq hu'
    rw [htc, huc]
    exact hlt
  · rw [show (analyze sens feed order).exportTargets =
        exportTargets (scoredStore sens feed)
          (rank_functions (scoredStore sens feed) (group_functions order))
      from rfl, exportTargets_eq_filterMap]
    refine List.filterMap_congr ?_
    intro p hp
    exact exportGroup_eq_head (scoredStore sens feed) p.2.functions
  · intro p hp hall
    rw [show (analyze sens feed order).functions = scoredStore sens feed
      from rfl] at hall ⊢
    rw [exportGroup_eq_head]
    have : p.2.functions.filterMap (qualTarget (scoredStore sens feed)) = [] := by
      rw [List.filterMap_eq_nil_iff]
      exact hall
    rw [this]
    rfl

theorem claim_C1_witness :
    (((storeAtGrouping feedC1).map Prod.snd).Perm
        ((storeAtGrouping feedC1).map Prod.snd)) ∧
      (((analyze [] feedC1
          ((storeAtGrouping feedC1).map Prod.snd)).exportTargets.Pairwise
          (fun t u => t.complexity < u.complexity)) ∧
        ((analyze [] feedC1
            ((storeAtGrouping feedC1).map Prod.snd)).exportTargets =
          (analyze [] feedC1
            ((storeAtGrouping feedC1).map Prod.snd)).complexity_groups.filterMap
            fun p =>
              (p.2.functions.filterMap
                (qualTarget (analyze [] feedC1
                  ((storeAtGrouping feedC1).map Prod.snd)).functions)).head?) ∧
        (∀ p ∈ (analyze [] feedC1
            ((storeAtGrouping feedC1).map Prod.snd)).complexity_groups,
          (∀ b ∈ p.2.functions,
              qualTarget (analyze [] feedC1
                ((storeAtGrouping feedC1).map Prod.snd)).functions b = none) →
            exportGroup (analyze [] feedC1
                ((storeAtGrouping feedC1).map Prod.snd)).functions
              p.2.functions = none)) :=
  ⟨List.Perm.refl _,
    claim_C1 [] feedC1 ((storeAtGrouping feedC1).map Prod.snd)
      (List.Perm.refl _)⟩

theorem exportLoop_spec (b : Backend) :
    ∀ (gs : Groups) (acc : List TargetFunction),
      exportLoop b gs acc =
        (b, acc ++ gs.filterMap fun p => exportGroup b.functions p.2.functions)
  | [], acc => by simp [exportLoop]
  | p :: gs, acc => by
      unfold exportLoop
      rcases h : exportGroup b.functions p.2.functions with _ | t
      · rw [List.filterMap_cons, h]
        simp only
        rw [exportLoop_spec b gs acc]
      · rw [List.filterMap_cons, h]
        simp only
        rw [exportLoop_spec b gs (acc ++ [t])]
        simp

/-- **C10.** `export` is a pure read of the analyzed state: it modifies
no function record and no complexity group (the threaded receiver comes
back unchanged), so any number of successive `export` calls with no
intervening `analyze` return equal output sequences. -/
theorem claim_C10 (b : Backend) :
    (exportS b).1 = b ∧ (exportS b).2 = b.exportTargets ∧
      ∀ n : Nat, ∀ o ∈ exportTimes b n, o = b.exportTargets := by
  have hs : exportS b = (b, b.exportTargets) := by
    unfold exportS
    rw [exportLoop_spec]
    rw [show b.exportTargets = exportTargets b.functions b.complexity_groups
      from rfl, exportTargets_eq_filterMap]
    simp
  refine ⟨by rw [hs], by rw [hs], ?_⟩
  intro n
  induction n with
  | zero => intro o ho; simp [exportTimes] at ho
  | succ m ih =>
      intro o ho
      unfold exportTimes at ho
      rw [hs] at ho
      rcases List.mem_cons.1 ho with rfl | ho
      · rfl
      · exact ih o ho

theorem claim_C10_witness :
    (exportS ⟨[], [], []⟩).1 = (⟨[], [], []⟩ : Backend) ∧
      (exportS ⟨[], [], []⟩).2 = Backend.exportTargets ⟨[], [], []⟩ ∧
      ∀ n : Nat, ∀ o ∈ exportTimes ⟨[], [], []⟩ n,
        o = Backend.exportTargets ⟨[], [], []⟩ :=
  claim_C10 ⟨[], [], []⟩

/-- The inner weight loop: iterating the whole table and adding every
weight whose key matches the fragment equals (for a duplicate-free
table, which a `HashMap` is) a single keyed lookup with default `0`. -/
theorem weight_foldl (x : String) :
    ∀ (sens : List (String × ℚ)) (acc : ℚ), (sens.map Prod.fst).Nodup →
      sens.foldl (fun a p => if x = p.1 then a + p.2 else a) acc =
        acc + ((List.lookup x sens).getD 0)
  | [], acc, _ => by simp [List.lookup]
  | (s, w) :: sens, acc, hnd => by
      simp only [List.map_cons, List.nodup_cons] at hnd
      rw [List.foldl_cons, lookup_cons]
      by_cases hx : x = s
      · rw [if_pos hx, if_pos hx]
        have habs : List.lookup x sens = none := by
          rw [lookup_eq_none_iff]
          rw [hx]
          exact hnd.1
        rw [weight_foldl x sens (acc + w) hnd.2, habs]
        simp
      · rw [if_neg hx, if_neg hx]
        exact weight_foldl x sens acc hnd.2

theorem sensScore_foldl (sens : List (String × ℚ)) (st : Store)
    (fallback : String) (hnd : (sens.map Prod.fst).Nodup) :
    ∀ (calls : List Nat) (acc : ℚ),
      calls.foldl
        (fun acc c =>
          match List.lookup c st with
          | none => acc
          | some called =>
              sens.foldl
                (fun a p =>
                  if nameFragment called.name fallback = p.1 then a + p.2
                  else a) acc)
        acc =
        acc + (calls.map (callWeight sens st fallback)).sum
  | [], acc => by simp
  | c :: calls, acc => by
      rw [List.foldl_cons, List.map_cons, List.sum_cons]
      rcases hl : List.lookup c st with _ | called
      · simp only [hl]
        rw [sensScore_foldl sens st fallback hnd calls acc]
        rw [show callWeight sens st fallback c = 0 from by
          unfold callWeight; rw [hl]]
        ring_nf
      · simp only [hl]
        rw [weight_foldl _ sens acc hnd,
          sensScore_foldl sens st fallback hnd calls _]
        rw [show callWeight sens st fallback c =
            (List.lookup (nameFragment called.name fallback) sens).getD 0 from by
          unfold callWeight; rw [hl]]
        ring

/-- **C5 (amended).** For a duplicate-free weight table, every
function's `s_f` is set to the sum, over its call edges counted with
multiplicity, of the table weight keyed by the callee's bare name
fragment (the part of the callee's name after the final `"."`), where a
callee that has no record contributes `0` and a callee that is absent
from the table contributes `0`.  A callee whose name is empty has the
empty fragment, so it matches an empty-string table key when one is
present (this is where the original claim fails, see the
counterexample). -/
theorem claim_C5 (sens : List (String × ℚ)) (st : Store)
    (hnd : (sens.map Prod.fst).Nodup) (p : Nat × Function) (hp : p ∈ st) :
    ((p.1, sensUpd sens st p.2) ∈
        calculate_sensitivity_function_call_index sens st) ∧
      (sensUpd sens st p.2).s_f =
        some ((p.2.calls.map (callWeight sens st p.2.name)).sum) := by
  constructor
  · exact List.mem_map.2 ⟨p, hp, rfl⟩
  · show some (sensScore sens st p.2) = _
    unfold sensScore
    rw [sensScore_foldl sens st p.2.name hnd p.2.calls 0]
    rw [zero_add]

theorem claim_C5_witness :
    ((([("memcpy", (5 : ℚ))] : List (String × ℚ)).map Prod.fst).Nodup ∧
        (List.lookup 1 (set_functions feedC5)).isSome = true) ∧
      (∀ f, List.lookup 1 (set_functions feedC5) = some f →
        ((1, sensUpd [("memcpy", 5)] (set_functions feedC5) f) ∈
            calculate_sensitivity_function_call_index [("memcpy", 5)]
              (set_functions feedC5)) ∧
        (sensUpd [("memcpy", 5)] (set_functions feedC5) f).s_f = some 10) := by
  refine ⟨⟨by decide, by with_unfolding_all decide⟩, ?_⟩
  intro f hf
  have hmem : (1, f) ∈ set_functions feedC5 := lookup_mem hf
  have h := claim_C5 [("memcpy", 5)] (set_functions feedC5) (by decide)
    (1, f) hmem
  refine ⟨h.1, ?_⟩
  rw [h.2]
  have hfeq : f = { Function.new 1 with
      name := "F", cc := 1, calls := [2, 2, 3] } := by
    have : List.lookup 1 (set_functions feedC5) =
        some { Function.new 1 with name := "F", cc := 1, calls := [2, 2, 3] } := by
      with_unfolding_all decide
    rw [this] at hf
    injection hf with hf
    exact hf.symm
  subst hfeq
  with_unfolding_all decide

/-- **C5 counterexample.** The claim as stated says a callee whose name
is empty never produces a match.  In the code, an empty name yields the
empty fragment (`"".split(".").last() == Some("")`), which matches an
empty-string table key: with table `{"" ↦ 5}` and `F` calling the
never-defined address `2` (whose bare record has the empty name), `F`'s
sensitivity score is `5`, not `0`. -/
theorem claim_C5_cex :
    (List.lookup 1
        (calculate_sensitivity_function_call_index [("", 5)]
          (set_functions [⟨⟨"F", 1, 0, 1⟩, [⟨"CALL", 2⟩], []⟩]))).map
        Function.s_f = some (some 5) ∧
      (List.lookup 2 (set_functions [⟨⟨"F", 1, 0, 1⟩, [⟨"CALL", 2⟩], []⟩])).map
        Function.name = some "" ∧
      (some (5 : ℚ) : F64) ≠ some 0 := by
  refine ⟨?_, ?_, ?_⟩ <;> with_unfolding_all decide

/-- Two sorted permutations of each other are equal, provided the order
is antisymmetric on the elements involved. -/
theorem sorted_perm_eq {α : Type} {le : α → α → Prop} :
    ∀ {l₁ l₂ : List α}, l₁.Perm l₂ → l₁.Pairwise le → l₂.Pairwise le →
      (∀ a ∈ l₁, ∀ b ∈ l₁, le a b → le b a → a = b) → l₁ = l₂
  | [], l₂, hp, _, _, _ => hp.nil_eq
  | a :: t₁, l₂, hp, hs₁, hs₂, hanti => by
      cases l₂ with
      | nil => exact hp.eq_nil
      | cons b t₂ =>
          have hab : a = b := by
            by_contra hne
            have hbl : b ∈ a :: t₁ := hp.mem_iff.2 (List.mem_cons_self b t₂)
            have hal : a ∈ b :: t₂ := hp.mem_iff.1 (List.mem_cons_self a t₁)
            have hb1 : b ∈ t₁ := by
              rcases List.mem_cons.1 hbl with h | h
              · exact absurd h.symm hne
              · exact h
            have ha2 : a ∈ t₂ := by
              rcases List.mem_cons.1 hal with h | h
              · exact absurd h hne
              · exact h
            have hle1 : le a b := (List.pairwise_cons.1 hs₁).1 b hb1
            have hle2 : le b a := (List.pairwise_cons.1 hs₂).1 a ha2
            exact hne (hanti a (List.mem_cons_self a t₁) b hbl hle1 hle2)
          subst hab
          have ht : t₁.Perm t₂ := hp.cons_inv
          have htail := sorted_perm_eq ht (List.pairwise_cons.1 hs₁).2
            (List.pairwise_cons.1 hs₂).2
            (fun x hx y hy hxy hyx =>
              hanti x (List.mem_cons_of_mem a hx) y
                (List.mem_cons_of_mem a hy) hxy hyx)
          rw [htail]

/-- Two strictly sorted lists of naturals with the same members are
equal. -/
theorem sorted_lt_eq {l₁ l₂ : List Nat} (h₁ : l₁.Pairwise (· < ·))
    (h₂ : l₂.Pairwise (· < ·)) (hm : ∀ x, x ∈ l₁ ↔ x ∈ l₂) : l₁ = l₂ := by
  have hnd₁ : l₁.Nodup := h₁.imp ne_of_lt
  have hnd₂ : l₂.Nodup := h₂.imp ne_of_lt
  have hperm : l₁.Perm l₂ := (List.perm_ext_iff_of_nodup hnd₁ hnd₂).2 hm
  exact sorted_perm_eq hperm h₁ h₂
    (fun a _ b _ hab hba => absurd hba (lt_asymm hab))

/-- Every complexity group ever created holds at least one member (a
group is created only to receive a push in the same step). -/
theorem groups_nonempty :
    ∀ (order : List Function) (gs : Groups),
      (∀ p ∈ gs, p.2.functions ≠ []) →
      ∀ p ∈ order.foldl groupStep gs, p.2.functions ≠ []
  | [], gs, hinv => hinv
  | f :: order, gs, hinv => by
      rw [List.foldl_cons]
      refine groups_nonempty order (groupStep gs f) ?_
      intro p hp
      by_cases hm : 0 < f.complex_f
      · have hstep : groupStep gs f = bmAdjust f.complex_f
            (fun g => { g with functions := g.functions ++ [f.offset] })
            (if bmContains f.complex_f gs then gs
             else bmInsertNew f.complex_f (ComplexityGroup.new f.complex_f) gs) := by
          simp [groupStep, hm]
        rw [hstep] at hp
        rcases List.mem_map.1 hp with ⟨q, hq, rfl⟩
        by_cases h : q.1 = f.complex_f
        · rw [if_pos h]
          simp
        · rw [if_neg h]
          by_cases hc : bmContains f.complex_f gs
          · rw [if_pos hc] at hq
            exact hinv q hq
          · rw [if_neg hc] at hq
            rcases mem_bmInsertNew.1 hq with hq' | hq'
            · exact absurd (congrArg Prod.fst hq') h
            · exact hinv q hq'
      · have hstep : groupStep gs f = gs := by simp [groupStep, hm]
        rw [hstep] at hp
        exact hinv p hp

/-- A key has a group exactly when its member list is nonempty. -/
theorem keys_iff_members (order : List Function) (k : Nat) :
    k ∈ (group_functions order).map Prod.fst ↔
      gMembers (group_functions order) k ≠ [] := by
  constructor
  · intro hk
    have hsome : (List.lookup k (group_functions order)).isSome :=
      (lookup_isSome_iff k (group_functions order)).2 hk
    rcases hl : List.lookup k (group_functions order) with _ | g
    · rw [hl] at hsome
      simp at hsome
    · have hne : g.functions ≠ [] :=
        groups_nonempty order [] (by simp) (k, g) (lookup_mem hl)
      unfold gMembers
      rw [hl]
      exact hne
  · intro hne
    by_contra hk
    have : List.lookup k (group_functions order) = none :=
      (lookup_eq_none_iff k (group_functions order)).2 hk
    unfold gMembers at hne
    rw [this] at hne
    exact hne rfl

/-- Ranking sorts each `gMembers` list. -/
theorem gMembers_rank (st : Store) (gs : Groups) (k : Nat) :
    gMembers (rank_functions st gs) k =
      List.insertionSort (rankLe st) (gMembers gs k) := by
  unfold gMembers rank_functions
  rw [lookup_mapSnd (rankUpd st) k gs]
  cases hl : List.lookup k gs
  · rfl
  · rfl

/-- Extensionality for the group map: equal sorted key sequences and
equal member lists force equal association lists. -/
theorem assoc_ext :
    ∀ (gs₁ gs₂ : Groups),
      gs₁.map Prod.fst = gs₂.map Prod.fst →
      (gs₁.map Prod.fst).Nodup →
      (∀ p ∈ gs₁, p.2.complex_f = p.1) →
      (∀ p ∈ gs₂, p.2.complex_f = p.1) →
      (∀ k, gMembers gs₁ k = gMembers gs₂ k) →
      gs₁ = gs₂
  | [], [], _, _, _, _, _ => rfl
  | [], (k, g) :: gs₂, hk, _, _, _, _ => by simp at hk
  | (k, g) :: gs₁, [], hk, _, _, _, _ => by simp at hk
  | (k₁, g₁) :: gs₁, (k₂, g₂) :: gs₂, hkeys, hnd, hi₁, hi₂, hm => by
      rw [List.map_cons, List.map_cons] at hkeys
      injection hkeys with hk12 htl
      subst hk12
      rw [List.map_cons, List.nodup_cons] at hnd
      have hfun : g₁.functions = g₂.functions := by
        have hmk := hm k₁
        unfold gMembers at hmk
        rw [lookup_cons, lookup_cons, if_pos rfl, if_pos rfl] at hmk
        exact hmk
      have hg : g₁ = g₂ := by
        have h1 : g₁.complex_f = k₁ := hi₁ (k₁, g₁) (List.mem_cons_self _ _)
        have h2 : g₂.complex_f = k₁ := hi₂ (k₁, g₂) (List.mem_cons_self _ _)
        cases g₁
        cases g₂
        simp only at hfun h1 h2
        rw [hfun, h1, h2]
      subst hg
      have hrest : gs₁ = gs₂ := by
        refine assoc_ext gs₁ gs₂ htl hnd.2
          (fun p hp => hi₁ p (List.mem_cons_of_mem _ hp))
          (fun p hp => hi₂ p (List.mem_cons_of_mem _ hp)) ?_
        intro k
        by_cases hkk : k = k₁
        · subst hkk
          have hn₁ : List.lookup k gs₁ = none :=
            (lookup_eq_none_iff k gs₁).2 hnd.1
          have hn₂ : List.lookup k gs₂ = none :=
            (lookup_eq_none_iff k gs₂).2 (htl ▸ hnd.1)
          unfold gMembers
          rw [hn₁, hn₂]
        · have hmk := hm k
          unfold gMembers at hmk ⊢
          rw [lookup_cons, lookup_cons, if_neg hkk, if_neg hkk] at hmk
          exact hmk
      rw [hrest]

/-- **C6 (amended).** Re-running the full pipeline on the same feed and
weight table yields an identical exported sequence provided that within
each complexity class any two members with `total_cmp`-equal
vulnerability scores are the same record.  With ties, the member chosen
for a class can depend on the `HashMap` iteration order, which Rust
does not fix across runs (see the counterexample). -/
theorem claim_C6 (sens : List (String × ℚ)) (feed : List FeedEntry)
    (o1 o2 : List Function)
    (h1 : o1.Perm ((storeAtGrouping feed).map Prod.snd))
    (h2 : o2.Perm ((storeAtGrouping feed).map Prod.snd))
    (hdist : ∀ p ∈ scoredStore sens feed, ∀ q ∈ scoredStore sens feed,
      p.2.complex_f = q.2.complex_f →
      totalCmp p.2.vulnerability_f q.2.vulnerability_f = Ordering.eq →
      p = q) :
    (analyze sens feed o1).exportTargets =
      (analyze sens feed o2).exportTargets := by
  suffices h : rank_functions (scoredStore sens feed) (group_functions o1) =
      rank_functions (scoredStore sens feed) (group_functions o2) by
    show exportTargets (scoredStore sens feed)
        (rank_functions (scoredStore sens feed) (group_functions o1)) = _
    rw [h]
    rfl
  have hperm : o1.Perm o2 := h1.trans h2.symm
  have hmem : ∀ k, (gMembers (group_functions o1) k).Perm
      (gMembers (group_functions o2) k) := by
    intro k
    rw [gMembers_group_functions, gMembers_group_functions]
    exact (hperm.filter _).map _
  have hkeq : (group_functions o1).map Prod.fst =
      (group_functions o2).map Prod.fst := by
    refine sorted_lt_eq (group_functions_keys_sorted o1)
      (group_functions_keys_sorted o2) ?_
    intro k
    rw [keys_iff_members o1 k, keys_iff_members o2 k]
    constructor
    · intro hne h0
      have hk := hmem k
      rw [h0] at hk
      exact hne hk.eq_nil
    · intro hne h0
      have hk := hmem k
      rw [h0] at hk
      exact hne hk.nil_eq.symm
  have hsorted_eq : ∀ k,
      List.insertionSort (rankLe (scoredStore sens feed))
        (gMembers (group_functions o1) k) =
      List.insertionSort (rankLe (scoredStore sens feed))
        (gMembers (group_functions o2) k) := by
    intro k
    have hp : (List.insertionSort (rankLe (scoredStore sens feed))
        (gMembers (group_functions o1) k)).Perm
        (List.insertionSort (rankLe (scoredStore sens feed))
          (gMembers (group_functions o2) k)) :=
      ((rank_perm _ _).trans (hmem k)).trans (rank_perm _ _).symm
    refine sorted_perm_eq hp (rank_sorted _ _) (rank_sorted _ _) ?_
    intro a ha b hb hab hba
    have ha' : a ∈ gMembers (group_functions o1) k :=
      (rank_perm _ _).mem_iff.1 ha
    have hb' : b ∈ gMembers (group_functions o1) k :=
      (rank_perm _ _).mem_iff.1 hb
    obtain ⟨fa, hfa, hfac, hfao, _⟩ := member_record sens h1 ha'
    obtain ⟨fb, hfb, hfbc, hfbo, _⟩ := member_record sens h1 hb'
    have hsa : scoreAt (scoredStore sens feed) a = fa.vulnerability_f := by
      unfold scoreAt
      rw [hfa]
    have hsb : scoreAt (scoredStore sens feed) b = fb.vulnerability_f := by
      unfold scoreAt
      rw [hfb]
    have heq : totalCmp fa.vulnerability_f fb.vulnerability_f =
        Ordering.eq := by
      rw [← hsa, ← hsb]
      exact totalCmp_eq_of_le_le
        (by unfold rankLe at hba; exact hba)
        (by unfold rankLe at hab; exact hab)
    have hpair := hdist (a, fa) (lookup_mem hfa) (b, fb) (lookup_mem hfb)
      (by rw [hfac, hfbc]) heq
    exact congrArg Prod.fst hpair
  refine assoc_ext _ _ ?_ ?_ ?_ ?_ ?_
  · rw [keys_rank, keys_rank, hkeq]
  · rw [keys_rank]
    exact (group_functions_keys_sorted o1).imp ne_of_lt
  · intro p hp
    rcases List.mem_map.1 hp with ⟨q, hq, rfl⟩
    exact (group_functions_entry_inv o1 q hq).1
  · intro p hp
    rcases List.mem_map.1 hp with ⟨q, hq, rfl⟩
    exact (group_functions_entry_inv o2 q hq).1
  · intro k
    rw [gMembers_rank, gMembers_rank, hsorted_eq k]

/-- **C6 counterexample.** Both functions of `feedC6` get
`complexityIndex 1` and `vulnerabilityScore 1`; two runs whose
`HashMap` value iteration orders are reversals of each other (both are
permutations of the stored values, the only guarantee `HashMap` gives)
export different targets, so the exported sequence of the full pipeline
is not uniquely determined by feed and weight table when scores tie. -/
theorem claim_C6_cex :
    (((storeAtGrouping feedC6).map Prod.snd).Perm
        ((storeAtGrouping feedC6).map Prod.snd)) ∧
      ((((storeAtGrouping feedC6).map Prod.snd).reverse).Perm
        ((storeAtGrouping feedC6).map Prod.snd)) ∧
      (analyze [] feedC6 ((storeAtGrouping feedC6).map Prod.snd)).exportTargets ≠
        (analyze [] feedC6
          (((storeAtGrouping feedC6).map Prod.snd).reverse)).exportTargets := by
  refine ⟨List.Perm.refl _, List.reverse_perm _, ?_⟩
  with_unfolding_all decide

theorem claim_C6_witness :
    ((((storeAtGrouping feedC1).map Prod.snd).Perm
        ((storeAtGrouping feedC1).map Prod.snd)) ∧
      ((((storeAtGrouping feedC1).map Prod.snd).reverse).Perm
        ((storeAtGrouping feedC1).map Prod.snd)) ∧
      (∀ p ∈ scoredStore [] feedC1, ∀ q ∈ scoredStore [] feedC1,
        p.2.complex_f = q.2.complex_f →
        totalCmp p.2.vulnerability_f q.2.vulnerability_f = Ordering.eq →
        p = q)) ∧
      (analyze [] feedC1 ((storeAtGrouping feedC1).map Prod.snd)).exportTargets =
        (analyze [] feedC1
          (((storeAtGrouping feedC1).map Prod.snd).reverse)).exportTargets :=
  ⟨⟨List.Perm.refl _, List.reverse_perm _, by with_unfolding_all decide⟩,
    claim_C6 [] feedC1 ((storeAtGrouping feedC1).map Prod.snd)
      (((storeAtGrouping feedC1).map Prod.snd).reverse) (List.Perm.refl _)
      (List.reverse_perm _) (by with_unfolding_all decide)⟩

end Streamline
